import Mathlib

/-!
Verification of the local data layer of the File-Management-System repository.

The definitions below are a shallow embedding of `src/db/utils.ts` (record
store, trigram tokenizer, singleflight index builder, pagination, search),
`src/utils/fileActionsUtil.ts` (clipboard paste), and the ingestion worker.

Strings are modelled as Lean `String` (character level).  IndexedDB object
stores are modelled as lists of records keyed by their key path; `put` is an
in-place upsert.  One IndexedDB transaction is one Lean state transition, so a
"reader-observable state" is any state between two transitions.
-/

namespace FMS

/-- JS `String.prototype.toLowerCase` (ASCII-level model, `Char.toLower`). -/
def jsLower (s : String) : String := String.mk (s.toList.map Char.toLower)

/-- JS `String.prototype.trim`: strip leading and trailing whitespace. -/
def jsTrim (s : String) : String :=
  String.mk
    (((s.toList.dropWhile Char.isWhitespace).reverse.dropWhile
        Char.isWhitespace).reverse)

/-- `name.trim().toLowerCase()` as used by `buildTrigrams` and search. -/
def normName (s : String) : String := jsLower (jsTrim s)

/-- `startsWith` on character lists (helper for the substring check). -/
def swList : List Char → List Char → Bool
  | _, [] => true
  | [], _ :: _ => false
  | a :: as, b :: bs => a == b && swList as bs

/-- Helper for `jsIncludes`: does `needle` occur contiguously in `hay`? -/
def hasSub (hay needle : List Char) : Bool :=
  if swList hay needle then true
  else
    match hay with
    | [] => false
    | _ :: t => hasSub t needle

/-- JS `hay.includes(needle)`: literal contiguous substring test. -/
def jsIncludes (hay needle : String) : Bool := hasSub hay.toList needle.toList

/-- JS `Set` insertion: add at the end unless already present. -/
def addIfAbsent (l : List String) (x : String) : List String :=
  if x ∈ l then l else l ++ [x]

/-- `Array.from(new Set(l))`: deduplicate keeping first-occurrence order. -/
def jsSetOfList (l : List String) : List String := l.foldl addIfAbsent []

/-- `TRIGRAM_SIZE` from `src/db/utils.ts`. -/
def TRIGRAM_SIZE : Nat := 3

/-- `normalized.slice(i, i + TRIGRAM_SIZE)`. -/
def windowStr (s : String) (i : Nat) : String :=
  String.mk ((s.toList.drop i).take TRIGRAM_SIZE)

/-- `buildTrigrams` from `src/db/utils.ts`: trim + lowercase, return `[]` when
shorter than 3, otherwise the deduplicated list of all contiguous 3-character
windows (JS `Set` insertion order). -/
def buildTrigrams (name : String) : List String :=
  let normalized := normName name
  if normalized.length < TRIGRAM_SIZE then []
  else
    jsSetOfList ((List.range (normalized.length - TRIGRAM_SIZE + 1)).map
      (fun i => windowStr normalized i))

/-- `FileRecord` from `src/db/utils.ts` (= `FileItem` of the view model).
`id` is the primary key (`keyPath: "id"`); `name` is optional in the store
schema; `parent_id` is `string | null | undefined`, collapsed to `Option`
(`none` = null/absent).  The open bag of auxiliary fields (`[key: string]:
unknown`) is carried opaquely in `extra`. -/
structure FileRecord where
  id : String
  name : Option String
  parent_id : Option String
  modified : Option String
  extra : List (String × String)
deriving DecidableEq, Repr

/-- A posting of the Name Index Store (`NameIndexRecord` in `src/db/utils.ts`),
keyed by the composite key path `["token", "fileId"]`. -/
structure NameIndexRecord where
  token : String
  fileId : String
  parent_id : Option String
deriving DecidableEq, Repr

/-- Combined durable + process-local state: the record store (`STORE_NAME`),
the name index store (`NAME_INDEX_STORE`), and the process-local
`indexedParents` memo set of `src/db/utils.ts`. -/
structure St where
  records : List FileRecord
  nameIndex : List NameIndexRecord
  indexedParents : List String
deriving DecidableEq, Repr

/-- IndexedDB `store.put(record)` on the record store: upsert by the `id`
key path — replace the existing record with that id, else append. -/
def putRecord (rs : List FileRecord) (r : FileRecord) : List FileRecord :=
  if rs.any (fun x => x.id == r.id) then
    rs.map (fun x => if x.id == r.id then r else x)
  else rs ++ [r]

/-- IndexedDB `indexStore.put(posting)` on the name index store: upsert by
the composite key `(token, fileId)`. -/
def putPosting (idx : List NameIndexRecord) (e : NameIndexRecord) :
    List NameIndexRecord :=
  if idx.any (fun x => x.token == e.token && x.fileId == e.fileId) then
    idx.map (fun x => if x.token == e.token && x.fileId == e.fileId then e else x)
  else idx ++ [e]

/-- `String(item.name ?? "").trim()` from `updateNameIndexForItems`. -/
def recordTrimmedName (it : FileRecord) : String := jsTrim (it.name.getD "")

/-- One step of building the `tokenMap` (a JS `Map` from token to a JS `Set`
of file ids): `tokenMap.get(token) ?? new Set(); set.add(item.id)` with map
insertion order preserved. -/
def mapAddId (m : List (String × List String)) (tok fid : String) :
    List (String × List String) :=
  match m with
  | [] => [(tok, [fid])]
  | (t, ids) :: rest =>
    if t == tok then (t, if fid ∈ ids then ids else ids ++ [fid]) :: rest
    else (t, ids) :: mapAddId rest tok fid

/-- One iteration of the first loop of `updateNameIndexForItems`: skip the
item when its trimmed name or id is empty (`if (!name || !item.id) continue`)
or it has no trigrams, else add its id under each of its trigrams. -/
def tokenMapStep (m : List (String × List String)) (it : FileRecord) :
    List (String × List String) :=
  let name := recordTrimmedName it
  if name = "" ∨ it.id = "" then m
  else
    let trigrams := buildTrigrams name
    if trigrams = [] then m
    else trigrams.foldl (fun m tok => mapAddId m tok it.id) m

/-- The `tokenMap` of `updateNameIndexForItems`. -/
def tokenMapOf (items : List FileRecord) : List (String × List String) :=
  items.foldl tokenMapStep []

/-- The sequence of postings `updateNameIndexForItems` writes, in `put` order:
for each `(token, ids)` of the token map, one posting per id, with
`parent_id = items.find(item => item.id === fileId)?.parent_id ?? null`. -/
def nameIndexPuts (items : List FileRecord) : List NameIndexRecord :=
  (tokenMapOf items).foldl
    (fun acc pr =>
      acc ++ pr.2.map (fun fid =>
        { token := pr.1, fileId := fid,
          parent_id := (items.find? (fun it => it.id == fid)).bind
            (fun it => it.parent_id) }))
    []

/-- `updateNameIndexForItems` from `src/db/utils.ts`: perform the puts. -/
def updateNameIndexForItems (idx : List NameIndexRecord)
    (items : List FileRecord) : List NameIndexRecord :=
  (nameIndexPuts items).foldl putPosting idx

/-- `insertFiles` from `src/db/utils.ts`: one readwrite transaction over both
stores — `put` every item into the record store, then
`updateNameIndexForItems` on the name index store. -/
def insertFiles (s : St) (items : List FileRecord) : St :=
  { s with
    records := items.foldl putRecord s.records
    nameIndex := updateNameIndexForItems s.nameIndex items }

/-- `deleteFilesByIds` from `src/db/utils.ts`: one readwrite transaction over
the record store only — `store.delete(id)` for each id.  The name index store
is not part of the transaction, so postings of deleted records remain. -/
def deleteFilesByIds (s : St) (ids : List String) : St :=
  { s with
    records := ids.foldl (fun rs i => rs.filter (fun r => !(r.id == i))) s.records }

/-- `getFileById` from `src/db/utils.ts`: `db.get(STORE_NAME, id)`, `null`
(here `none`) when absent. -/
def getFileById (s : St) (id : String) : Option FileRecord :=
  s.records.find? (fun r => r.id == id)

/-- The parent-scoped cursor sequence: `index("byParentId").openCursor(p)`
iterates, in the store's internal order, exactly the records whose
`parent_id` equals the requested (non-null) key. -/
def scanByParent (rs : List FileRecord) (p : String) : List FileRecord :=
  rs.filter (fun r => r.parent_id == some p)

/-- `getFilesByParentId` from `src/db/utils.ts`: open the parent-scoped
cursor, `cursor.advance(offset)` when `offset > 0`, then collect records by
repeated `cursor.continue()` while fewer than `limit` are gathered. -/
def getFilesByParentId (s : St) (p : String) (limit offset : Nat) :
    List FileRecord :=
  ((scanByParent s.records p).drop offset).take limit

/-- `countChildrenByParentId` from `src/db/utils.ts`: `index.count(parentId)`. -/
def countChildrenByParentId (s : St) (p : String) : Nat :=
  (scanByParent s.records p).length

/-- `INDEX_BUILD_BATCH_SIZE` from `src/db/utils.ts`. -/
def INDEX_BUILD_BATCH_SIZE : Nat := 1000

/-- The cursor loop of `ensureParentIndexed`: push each scanned record onto
the current batch, flush the batch to `updateNameIndexForItems` whenever it
reaches `INDEX_BUILD_BATCH_SIZE`, and flush the non-empty remainder when the
cursor is exhausted. -/
def buildLoop (idx : List NameIndexRecord) (batch : List FileRecord) :
    List FileRecord → List NameIndexRecord
  | [] => if 0 < batch.length then updateNameIndexForItems idx batch else idx
  | r :: rest =>
    if INDEX_BUILD_BATCH_SIZE ≤ (batch ++ [r]).length then
      buildLoop (updateNameIndexForItems idx (batch ++ [r])) [] rest
    else buildLoop idx (batch ++ [r]) rest

/-- The body of one successful index build for parent `p` (the transaction of
`ensureParentIndexed`'s in-flight promise, plus `indexedParents.add`): scan
the parent's children in batches, write their postings, mark the parent
indexed. -/
def ensureBuildPass (s : St) (p : String) : St :=
  { s with
    nameIndex := buildLoop s.nameIndex [] (scanByParent s.records p)
    indexedParents := s.indexedParents ++ [p] }

/-- `ensureParentIndexed` from `src/db/utils.ts`, sequential semantics: no-op
when the parent is memoized, else one scan-and-write build pass. -/
def ensureParentIndexed (s : St) (p : String) : St :=
  if p ∈ s.indexedParents then s else ensureBuildPass s p

/-- `byTokenParent.getAll(IDBKeyRange.only([token, parentId]))` followed by
`new Set(records.map(r => r.fileId))`: the deduplicated file ids of postings
whose `(token, parent_id)` matches. -/
def postingIds (s : St) (tok p : String) : List String :=
  jsSetOfList
    ((s.nameIndex.filter (fun e => e.token == tok && e.parent_id == some p)).map
      (fun e => e.fileId))

/-- One iteration of the candidate-intersection loop in
`searchFilesByNameAndParentId`: first token seeds the set, later tokens
intersect (preserving the running set's order, as the JS loop does). -/
def intersectStep (acc : Option (List String)) (ids : List String) :
    Option (List String) :=
  match acc with
  | none => some ids
  | some cur => some (cur.filter (fun id => id ∈ ids))

/-- The verification loop of `searchFilesByNameAndParentId`: for each
candidate id (stopping once `limit` results are collected), fetch the record,
silently skip absent ones, and keep it iff its lowercased name contains the
normalized query as a literal substring. -/
def collectVerified (s : St) (normalized : String) (limit : Nat) :
    List String → List FileRecord → List FileRecord
  | [], results => results
  | id :: rest, results =>
    if limit ≤ results.length then results
    else
      match s.records.find? (fun r => r.id == id) with
      | none => collectVerified s normalized limit rest results
      | some item =>
        if jsIncludes (jsLower (item.name.getD "")) normalized then
          collectVerified s normalized limit rest (results ++ [item])
        else collectVerified s normalized limit rest results

/-- `searchFilesByNameAndParentId` from `src/db/utils.ts`.  Returns the result
list and the state after the call (the early returns for empty / too-short
queries happen before `ensureParentIndexed` and before the stores are opened,
so they leave the state untouched). -/
def searchFilesByNameAndParentId (s : St) (input : String) (p : String)
    (limit : Nat) : List FileRecord × St :=
  let normalized := normName input
  if normalized = "" then ([], s)
  else if normalized.length < TRIGRAM_SIZE then ([], s)
  else
    let s1 := ensureParentIndexed s p
    let tokens := buildTrigrams normalized
    if tokens = [] then ([], s1)
    else
      let candidateIds :=
        (tokens.foldl (fun acc tok => intersectStep acc (postingIds s1 tok p))
          none).getD []
      if candidateIds = [] then ([], s1)
      else (collectVerified s1 normalized limit candidateIds [], s1)

/-! ### Helper lemmas about `jsSetOfList` -/

theorem mem_addIfAbsent (acc : List String) (a x : String) :
    x ∈ addIfAbsent acc a ↔ x ∈ acc ∨ x = a := by
  unfold addIfAbsent
  split
  · rename_i h
    constructor
    · exact Or.inl
    · rintro (hx | rfl)
      · exact hx
      · exact h
  · simp

theorem nodup_addIfAbsent (acc : List String) (a : String) (h : acc.Nodup) :
    (addIfAbsent acc a).Nodup := by
  unfold addIfAbsent
  split
  · exact h
  · rename_i hna
    simpa [List.nodup_append] using ⟨h, hna⟩

theorem mem_foldl_addIfAbsent (l : List String) :
    ∀ (acc : List String) (x : String),
      x ∈ l.foldl addIfAbsent acc ↔ x ∈ acc ∨ x ∈ l := by
  induction l with
  | nil => simp
  | cons a t ih =>
    intro acc x
    simp only [List.foldl_cons, ih, mem_addIfAbsent, List.mem_cons]
    tauto

theorem mem_jsSetOfList (l : List String) (x : String) :
    x ∈ jsSetOfList l ↔ x ∈ l := by
  unfold jsSetOfList
  rw [mem_foldl_addIfAbsent]
  simp

theorem nodup_foldl_addIfAbsent (l : List String) :
    ∀ acc : List String, acc.Nodup → (l.foldl addIfAbsent acc).Nodup := by
  induction l with
  | nil => intro acc h; exact h
  | cons a t ih =>
    intro acc h
    exact ih _ (nodup_addIfAbsent acc a h)

theorem nodup_jsSetOfList (l : List String) : (jsSetOfList l).Nodup :=
  nodup_foldl_addIfAbsent l [] List.nodup_nil

/-! ### C6: the trigram tokenizer -/

/-- C6: `buildTrigrams` trims and lowercases its input; it returns the empty
list exactly when the normalized name is shorter than 3 characters, otherwise
exactly the set of all distinct contiguous 3-character windows of the
normalized name (deduplicated, no duplicates in the output, deterministic by
construction); in particular `buildTrigrams "abcabc"` is exactly
`["abc", "bca", "cab"]`. -/
theorem C6_buildTrigrams_spec (name t : String) :
    (buildTrigrams name = [] ↔ (normName name).length < 3)
    ∧ (t ∈ buildTrigrams name ↔
        ∃ i, i + 3 ≤ (normName name).length ∧ t = windowStr (normName name) i)
    ∧ (buildTrigrams name).Nodup
    ∧ buildTrigrams "abcabc" = ["abc", "bca", "cab"] := by
  refine ⟨?_, ?_, ?_, by decide⟩
  · unfold buildTrigrams
    simp only [TRIGRAM_SIZE]
    split
    · rename_i h; simpa using h
    · rename_i h
      push_neg at h
      constructor
      · intro hEmpty
        exfalso
        have h0 : windowStr (normName name) 0 ∈
            jsSetOfList ((List.range ((normName name).length - 3 + 1)).map
              (fun i => windowStr (normName name) i)) := by
          rw [mem_jsSetOfList, List.mem_map]
          exact ⟨0, List.mem_range.mpr (Nat.succ_pos _), rfl⟩
        rw [hEmpty] at h0
        exact absurd h0 (List.not_mem_nil _)
      · intro hlt
        exact absurd hlt (Nat.not_lt.mpr h)
  · unfold buildTrigrams
    simp only [TRIGRAM_SIZE]
    split
    · rename_i h
      simp only [List.not_mem_nil, false_iff]
      rintro ⟨i, hi, -⟩
      omega
    · rename_i h
      push_neg at h
      rw [mem_jsSetOfList, List.mem_map]
      constructor
      · rintro ⟨i, hi, rfl⟩
        rw [List.mem_range] at hi
        exact ⟨i, by omega, rfl⟩
      · rintro ⟨i, hi, rfl⟩
        exact ⟨i, List.mem_range.mpr (by omega), rfl⟩
  · unfold buildTrigrams
    simp only [TRIGRAM_SIZE]
    split
    · exact List.nodup_nil
    · exact nodup_jsSetOfList _

/-! ### Helper lemmas about `putRecord` and `find?` -/

theorem find_map_replace (r : FileRecord) :
    ∀ rs : List FileRecord, rs.any (fun x => x.id == r.id) = true →
      (rs.map (fun x => if x.id == r.id then r else x)).find?
        (fun x => x.id == r.id) = some r := by
  intro rs
  induction rs with
  | nil => simp
  | cons a t ih =>
    intro hany
    rw [List.map_cons]
    by_cases ha : a.id = r.id
    · rw [if_pos (by simpa using ha)]
      exact List.find?_cons_of_pos _ (by simp)
    · rw [if_neg (by simpa using ha)]
      rw [List.find?_cons_of_neg _ (by simpa using ha)]
      have ht : t.any (fun x => x.id == r.id) = true := by
        simpa [List.any_cons, ha] using hany
      exact ih ht

theorem find_append_miss (r : FileRecord) :
    ∀ rs : List FileRecord, rs.any (fun x => x.id == r.id) = false →
      (rs ++ [r]).find? (fun x => x.id == r.id) = some r := by
  intro rs
  induction rs with
  | nil => exact fun _ => List.find?_cons_of_pos _ (by simp)
  | cons a t ih =>
    intro hany
    rw [List.any_cons, Bool.or_eq_false_iff] at hany
    rw [List.cons_append, List.find?_cons_of_neg _ (by simp [hany.1])]
    exact ih hany.2

/-- After `put r`, looking up `r.id` finds exactly `r`. -/
theorem findById_putRecord_self (rs : List FileRecord) (r : FileRecord) :
    (putRecord rs r).find? (fun x => x.id == r.id) = some r := by
  unfold putRecord
  split
  · rename_i h; exact find_map_replace r rs h
  · rename_i h
    exact find_append_miss r rs (by simpa using h)

/-- `put r` does not change lookups for other ids. -/
theorem findById_putRecord_other (rs : List FileRecord) (r : FileRecord)
    (i : String) (h : r.id ≠ i) :
    (putRecord rs r).find? (fun x => x.id == i)
      = rs.find? (fun x => x.id == i) := by
  unfold putRecord
  split
  · clear * - h
    induction rs with
    | nil => rfl
    | cons a t ih =>
      rw [List.map_cons]
      by_cases ha : a.id = r.id
      · rw [if_pos (by simpa using ha)]
        rw [List.find?_cons_of_neg _ (by simpa using h),
            List.find?_cons_of_neg _ (by simp [ha]; exact h)]
        exact ih
      · rw [if_neg (by simpa using ha)]
        by_cases hai : a.id = i
        · rw [List.find?_cons_of_pos _ (by simpa using hai),
              List.find?_cons_of_pos _ (by simpa using hai)]
        · rw [List.find?_cons_of_neg _ (by simpa using hai),
              List.find?_cons_of_neg _ (by simpa using hai)]
          exact ih
  · clear * - h
    induction rs with
    | nil =>
      simp only [List.nil_append]
      rw [List.find?_cons_of_neg _ (by simpa using h)]
    | cons a t ih =>
      rw [List.cons_append]
      by_cases hai : a.id = i
      · rw [List.find?_cons_of_pos _ (by simpa using hai),
            List.find?_cons_of_pos _ (by simpa using hai)]
      · rw [List.find?_cons_of_neg _ (by simpa using hai),
            List.find?_cons_of_neg _ (by simpa using hai)]
        exact ih

/-! ### C7: insert-then-get round trip -/

/-- C7: for every record `r`, after `insertFiles [r]` the lookup
`getFileById r.id` returns `r` itself, equal in all fields (`put` upserts by
the `id` key path). -/
theorem C7_insert_get_roundtrip (s : St) (r : FileRecord) :
    getFileById (insertFiles s [r]) r.id = some r := by
  unfold getFileById insertFiles
  simp only [List.foldl_cons, List.foldl_nil]
  exact findById_putRecord_self s.records r

/-! ### C8: short queries return nothing and touch nothing -/

theorem search_short_eq (s : St) (input p : String) (limit : Nat)
    (h : (normName input).length < 3) :
    searchFilesByNameAndParentId s input p limit = ([], s) := by
  by_cases he : normName input = ""
  · simp [searchFilesByNameAndParentId, he]
  · simp [searchFilesByNameAndParentId, he, TRIGRAM_SIZE, h]

/-- C8: when the trimmed, lowercased query is shorter than 3 characters (in
particular when it is empty), `searchFilesByNameAndParentId` returns the empty
list and leaves the state exactly as it was: the early returns fire before
`ensureParentIndexed` and before any store is opened or read. -/
theorem C8_short_query_no_results (s : St) (input p : String) (limit : Nat)
    (h : (normName input).length < 3) :
    searchFilesByNameAndParentId s input p limit = ([], s) :=
  search_short_eq s input p limit h

/-- Witness for C8 at a concrete state and the spec's own example query
`"ab"`. -/
theorem C8_short_query_no_results_witness :
    searchFilesByNameAndParentId
        { records := [{ id := "1", name := some "abc.txt",
                        parent_id := some "P", modified := none, extra := [] }],
          nameIndex := [], indexedParents := [] } "ab" "P" 150
      = ([], { records := [{ id := "1", name := some "abc.txt",
                             parent_id := some "P", modified := none,
                             extra := [] }],
               nameIndex := [], indexedParents := [] }) :=
  C8_short_query_no_results _ "ab" "P" 150 (by decide)

/-! ### C2: offset pagination reconstructs the parent scan -/

theorem flatMap_drop_take (l : List FileRecord) (k : Nat) :
    ∀ n : Nat,
      (List.range n).flatMap (fun i => (l.drop (i * k)).take k)
        = l.take (n * k) := by
  intro n
  induction n with
  | zero => simp
  | succ m ih =>
    rw [List.range_succ, List.flatMap_append, ih]
    simp only [List.flatMap_cons, List.flatMap_nil, List.append_nil]
    rw [Nat.succ_mul, List.take_add]

/-- C2: for any page size `k > 0`, concatenating
`getFilesByParentId(p, k, 0), getFilesByParentId(p, k, k), …` over enough
pages to cover all `N` children reproduces the unbounded parent-scoped scan
exactly — the very same list, hence the same set, no duplicates, no
omissions. -/
theorem C2_pagination_reconstructs_scan (s : St) (p : String) (k n : Nat)
    (hk : 0 < k) (hn : (scanByParent s.records p).length ≤ n * k) :
    (List.range n).flatMap (fun i => getFilesByParentId s p k (i * k))
      = scanByParent s.records p := by
  have _ := hk
  unfold getFilesByParentId
  rw [flatMap_drop_take]
  exact List.take_of_length_le hn

/-- Witness for C2: five children of parent `"P"`, page size 2, three pages. -/
theorem C2_pagination_witness :
    (List.range 3).flatMap
        (fun i =>
          getFilesByParentId
            { records :=
                [{ id := "1", name := some "a", parent_id := some "P",
                   modified := none, extra := [] },
                 { id := "2", name := some "b", parent_id := some "P",
                   modified := none, extra := [] },
                 { id := "3", name := some "c", parent_id := some "Q",
                   modified := none, extra := [] },
                 { id := "4", name := some "d", parent_id := some "P",
                   modified := none, extra := [] },
                 { id := "5", name := some "e", parent_id := some "P",
                   modified := none, extra := [] },
                 { id := "6", name := some "f", parent_id := some "P",
                   modified := none, extra := [] }],
              nameIndex := [], indexedParents := [] } "P" 2 (i * 2))
      = scanByParent
          [{ id := "1", name := some "a", parent_id := some "P",
             modified := none, extra := [] },
           { id := "2", name := some "b", parent_id := some "P",
             modified := none, extra := [] },
           { id := "3", name := some "c", parent_id := some "Q",
             modified := none, extra := [] },
           { id := "4", name := some "d", parent_id := some "P",
             modified := none, extra := [] },
           { id := "5", name := some "e", parent_id := some "P",
             modified := none, extra := [] },
           { id := "6", name := some "f", parent_id := some "P",
             modified := none, extra := [] }] "P" :=
  C2_pagination_reconstructs_scan _ "P" 2 3 (by decide) (by decide)

/-! ### C1: search results contain the query and respect the limit -/

theorem collectVerified_cons_stop (s : St) (normalized : String) (limit : Nat)
    (id : String) (rest : List String) (acc : List FileRecord)
    (hstop : limit ≤ acc.length) :
    collectVerified s normalized limit (id :: rest) acc = acc := by
  simp [collectVerified, hstop]

theorem collectVerified_cons_none (s : St) (normalized : String) (limit : Nat)
    (id : String) (rest : List String) (acc : List FileRecord)
    (hstop : ¬limit ≤ acc.length)
    (hfind : s.records.find? (fun r => r.id == id) = none) :
    collectVerified s normalized limit (id :: rest) acc
      = collectVerified s normalized limit rest acc := by
  simp [collectVerified, hstop, hfind]

theorem collectVerified_cons_hit (s : St) (normalized : String) (limit : Nat)
    (id : String) (rest : List String) (acc : List FileRecord)
    (item : FileRecord) (hstop : ¬limit ≤ acc.length)
    (hfind : s.records.find? (fun r => r.id == id) = some item)
    (hinc : jsIncludes (jsLower (item.name.getD "")) normalized = true) :
    collectVerified s normalized limit (id :: rest) acc
      = collectVerified s normalized limit rest (acc ++ [item]) := by
  simp [collectVerified, hstop, hfind, hinc]

theorem collectVerified_cons_miss (s : St) (normalized : String) (limit : Nat)
    (id : String) (rest : List String) (acc : List FileRecord)
    (item : FileRecord) (hstop : ¬limit ≤ acc.length)
    (hfind : s.records.find? (fun r => r.id == id) = some item)
    (hinc : ¬jsIncludes (jsLower (item.name.getD "")) normalized = true) :
    collectVerified s normalized limit (id :: rest) acc
      = collectVerified s normalized limit rest acc := by
  simp [collectVerified, hstop, hfind, hinc]

theorem collectVerified_sound (s : St) (normalized : String) (limit : Nat) :
    ∀ (ids : List String) (acc : List FileRecord),
      (∀ r ∈ acc, jsIncludes (jsLower (r.name.getD "")) normalized = true) →
      acc.length ≤ limit →
      (∀ r ∈ collectVerified s normalized limit ids acc,
          jsIncludes (jsLower (r.name.getD "")) normalized = true)
        ∧ (collectVerified s normalized limit ids acc).length ≤ limit := by
  intro ids
  induction ids with
  | nil =>
    intro acc h hlen
    exact ⟨by simpa [collectVerified] using h, by simpa [collectVerified] using hlen⟩
  | cons id rest ih =>
    intro acc h hlen
    by_cases hstop : limit ≤ acc.length
    · rw [collectVerified_cons_stop s normalized limit id rest acc hstop]
      exact ⟨h, hlen⟩
    · cases hfind : s.records.find? (fun r => r.id == id) with
      | none =>
        rw [collectVerified_cons_none s normalized limit id rest acc hstop hfind]
        exact ih acc h hlen
      | some item =>
        by_cases hinc : jsIncludes (jsLower (item.name.getD "")) normalized = true
        · rw [collectVerified_cons_hit s normalized limit id rest acc item hstop
            hfind hinc]
          refine ih (acc ++ [item]) ?_ ?_
          · intro r hr
            rcases List.mem_append.mp hr with hr | hr
            · exact h r hr
            · rw [List.mem_singleton.mp hr]
              exact hinc
          · rw [List.length_append, List.length_singleton]
            omega
        · rw [collectVerified_cons_miss s normalized limit id rest acc item hstop
            hfind hinc]
          exact ih acc h hlen

/-- C1: whenever the trimmed, lowercased query has length at least 3, every
record returned by `searchFilesByNameAndParentId` has a name whose lowercased
form contains the normalized query as a literal contiguous substring, and at
most `limit` records are returned. -/
theorem C1_search_sound (s : St) (input p : String) (limit : Nat)
    (h : 3 ≤ (normName input).length) :
    (∀ r ∈ (searchFilesByNameAndParentId s input p limit).1,
        jsIncludes (jsLower (r.name.getD "")) (normName input) = true)
    ∧ (searchFilesByNameAndParentId s input p limit).1.length ≤ limit := by
  have he : ¬normName input = "" := by
    intro h0
    rw [h0] at h
    simp [String.length] at h
  unfold searchFilesByNameAndParentId
  simp only [TRIGRAM_SIZE, if_neg he,
    if_neg (by omega : ¬(normName input).length < 3)]
  split
  · simp
  · split
    · simp
    · exact collectVerified_sound _ _ limit _ [] (by simp) (by simp)

/-- Witness for C1 on the spec's §8 example data with query `"udg"`. -/
theorem C1_search_sound_witness :
    (∀ r ∈ (searchFilesByNameAndParentId
        { records :=
            [{ id := "1", name := some "budget_report.xlsx",
               parent_id := some "P", modified := none, extra := [] },
             { id := "2", name := some "report_budget_old.txt",
               parent_id := some "P", modified := none, extra := [] },
             { id := "3", name := some "notes.txt", parent_id := some "P",
               modified := none, extra := [] }],
          nameIndex := [], indexedParents := [] } "udg" "P" 150).1,
        jsIncludes (jsLower (r.name.getD "")) (normName "udg") = true)
    ∧ (searchFilesByNameAndParentId
        { records :=
            [{ id := "1", name := some "budget_report.xlsx",
               parent_id := some "P", modified := none, extra := [] },
             { id := "2", name := some "report_budget_old.txt",
               parent_id := some "P", modified := none, extra := [] },
             { id := "3", name := some "notes.txt", parent_id := some "P",
               modified := none, extra := [] }],
          nameIndex := [], indexedParents := [] } "udg" "P" 150).1.length
        ≤ 150 :=
  C1_search_sound _ "udg" "P" 150 (by decide)

/-! ### C10: search results are live records; deletes leave postings behind -/

theorem collectVerified_mem (s : St) (normalized : String) (limit : Nat) :
    ∀ (ids : List String) (acc : List FileRecord) (r : FileRecord),
      r ∈ collectVerified s normalized limit ids acc →
      r ∈ acc ∨ s.records.find? (fun x => x.id == r.id) = some r := by
  intro ids
  induction ids with
  | nil =>
    intro acc r hr
    exact Or.inl (by simpa [collectVerified] using hr)
  | cons id rest ih =>
    intro acc r hr
    by_cases hstop : limit ≤ acc.length
    · rw [collectVerified_cons_stop s normalized limit id rest acc hstop] at hr
      exact Or.inl hr
    · cases hfind : s.records.find? (fun x => x.id == id) with
      | none =>
        rw [collectVerified_cons_none s normalized limit id rest acc hstop
          hfind] at hr
        exact ih acc r hr
      | some item =>
        by_cases hinc : jsIncludes (jsLower (item.name.getD "")) normalized = true
        · rw [collectVerified_cons_hit s normalized limit id rest acc item hstop
            hfind hinc] at hr
          rcases ih _ r hr with hmem | hfound
          · rcases List.mem_append.mp hmem with hmem | hmem
            · exact Or.inl hmem
            · right
              have hri : r = item := List.mem_singleton.mp hmem
              subst hri
              have hid : r.id = id := by
                simpa using List.find?_some hfind
              rw [hid]
              exact hfind
          · exact Or.inr hfound
        · rw [collectVerified_cons_miss s normalized limit id rest acc item hstop
            hfind hinc] at hr
          exact ih acc r hr

/-- C10: every record returned by `searchFilesByNameAndParentId` exists in
the record store at verification time (candidates whose record is absent are
silently skipped), while `deleteFilesByIds` touches only the record store —
the deleted records' postings and the parent memo are left behind; in the
concrete conjunct a record is inserted (creating postings), deleted, and a
search on its stale posting's token returns nothing instead of a dangling
result. -/
theorem C10_search_results_exist (s : St) (input p : String) (limit : Nat)
    (ids : List String) :
    (∀ r ∈ (searchFilesByNameAndParentId s input p limit).1,
        getFileById (searchFilesByNameAndParentId s input p limit).2 r.id
          = some r)
    ∧ (deleteFilesByIds s ids).nameIndex = s.nameIndex
    ∧ (deleteFilesByIds s ids).indexedParents = s.indexedParents
    ∧ (searchFilesByNameAndParentId
        (deleteFilesByIds
          (insertFiles { records := [], nameIndex := [], indexedParents := ["P"] }
            [{ id := "z", name := some "abc", parent_id := some "P",
               modified := none, extra := [] }])
          ["z"])
        "abc" "P" 10).1 = [] := by
  refine ⟨?_, rfl, rfl, by decide⟩
  by_cases hlt : (normName input).length < 3
  · rw [search_short_eq s input p limit hlt]
    simp
  · have he : ¬normName input = "" := by
      intro h0
      rw [h0] at hlt
      exact hlt (by simp [String.length])
    unfold searchFilesByNameAndParentId
    simp only [TRIGRAM_SIZE]
    rw [if_neg he, if_neg hlt]
    split
    · simp
    · split
      · simp
      · intro r hr
        rcases collectVerified_mem _ _ limit _ [] r hr with hmem | hfound
        · exact absurd hmem (List.not_mem_nil r)
        · exact hfound

/-! ### C5: cut-then-paste is two transactions, not one

`pasteClipboard` (`src/utils/fileActionsUtil.ts`, cut branch) runs
`await deleteFilesByIds(ids)` and then `await insertFiles(movedItems)`:
two separately committed write transactions.  The state after the delete
commits and before the insert commits is observable to readers. -/

/-- `makeMove` from `pasteClipboard`: same id, parent rewritten to the paste
target, modification time stamped. -/
def makeMove (target now : String) (it : FileRecord) : FileRecord :=
  { it with parent_id := some target, modified := some now }

/-- The observable state between the two `await`s of the cut branch of
`pasteClipboard`: the delete transaction has committed, the insert has not. -/
def pasteCutIntermediate (s : St) (clipboard : List FileRecord) : St :=
  deleteFilesByIds s (clipboard.map (fun it => it.id))

/-- The state after the cut branch of `pasteClipboard` completes: the
parent-rewritten records have been inserted by the second transaction. -/
def pasteCutFinal (s : St) (clipboard : List FileRecord) (target now : String) :
    St :=
  insertFiles (pasteCutIntermediate s clipboard)
    (clipboard.map (makeMove target now))

theorem mem_delete_fold :
    ∀ (ids : List String) (rs : List FileRecord) (r : FileRecord),
      r ∈ ids.foldl (fun rs i => rs.filter (fun x => !(x.id == i))) rs →
      r ∈ rs ∧ r.id ∉ ids := by
  intro ids
  induction ids with
  | nil =>
    intro rs r hr
    exact ⟨hr, by simp⟩
  | cons i t ih =>
    intro rs r hr
    rw [List.foldl_cons] at hr
    rcases ih _ r hr with ⟨hmem, hnot⟩
    rw [List.mem_filter] at hmem
    refine ⟨hmem.1, ?_⟩
    intro hcontra
    rcases List.mem_cons.mp hcontra with h | h
    · have := hmem.2
      simp [h] at this
    · exact hnot h

theorem findById_delete_fold (ids : List String) (rs : List FileRecord)
    (i : String) (hi : i ∈ ids) :
    (ids.foldl (fun rs i => rs.filter (fun x => !(x.id == i))) rs).find?
      (fun x => x.id == i) = none := by
  rw [List.find?_eq_none]
  intro r hr
  rcases mem_delete_fold ids rs r hr with ⟨-, hnot⟩
  intro hbeq
  have hri : r.id = i := by simpa using hbeq
  exact hnot (by rw [hri]; exact hi)

theorem findById_insert_untouched :
    ∀ (items : List FileRecord) (rs : List FileRecord) (i : String),
      (∀ y ∈ items, y.id ≠ i) →
      (items.foldl putRecord rs).find? (fun x => x.id == i)
        = rs.find? (fun x => x.id == i) := by
  intro items
  induction items with
  | nil => intro rs i _; rfl
  | cons y ys ih =>
    intro rs i h
    rw [List.foldl_cons,
      ih (putRecord rs y) i (fun z hz => h z (List.mem_cons_of_mem y hz)),
      findById_putRecord_other rs y i (h y (List.mem_cons_self y ys))]

theorem findById_insert_list :
    ∀ (items : List FileRecord) (rs : List FileRecord) (it : FileRecord),
      (items.map (fun x => x.id)).Nodup → it ∈ items →
      (items.foldl putRecord rs).find? (fun x => x.id == it.id) = some it := by
  intro items
  induction items with
  | nil => intro rs it _ hmem; exact absurd hmem (List.not_mem_nil it)
  | cons x xs ih =>
    intro rs it hnd hmem
    rw [List.map_cons, List.nodup_cons] at hnd
    rw [List.foldl_cons]
    rcases List.mem_cons.mp hmem with rfl | hmem
    · rw [findById_insert_untouched xs (putRecord rs it) it.id
        (fun y hy => fun hc => hnd.1 (hc ▸ List.mem_map_of_mem _ hy))]
      exact findById_putRecord_self rs it
    · exact ih (putRecord rs x) it hnd.2 hmem

/-- Counterexample for C5: a concrete cut-then-paste in which the state
between the two transactions is observably distinct from both the initial
and the final state — the old record is already deleted while the rewritten
record is not yet inserted, so a reader can observe the intermediate state. -/
theorem C5_counterexample :
    getFileById
        (pasteCutIntermediate
          { records := [{ id := "r1", name := some "doc.txt",
                          parent_id := some "A", modified := some "t0",
                          extra := [] }],
            nameIndex := [], indexedParents := [] }
          [{ id := "r1", name := some "doc.txt", parent_id := some "A",
             modified := some "t0", extra := [] }])
        "r1" = none
    ∧ pasteCutIntermediate
          { records := [{ id := "r1", name := some "doc.txt",
                          parent_id := some "A", modified := some "t0",
                          extra := [] }],
            nameIndex := [], indexedParents := [] }
          [{ id := "r1", name := some "doc.txt", parent_id := some "A",
             modified := some "t0", extra := [] }]
        ≠ { records := [{ id := "r1", name := some "doc.txt",
                          parent_id := some "A", modified := some "t0",
                          extra := [] }],
            nameIndex := [], indexedParents := [] }
    ∧ pasteCutIntermediate
          { records := [{ id := "r1", name := some "doc.txt",
                          parent_id := some "A", modified := some "t0",
                          extra := [] }],
            nameIndex := [], indexedParents := [] }
          [{ id := "r1", name := some "doc.txt", parent_id := some "A",
             modified := some "t0", extra := [] }]
        ≠ pasteCutFinal
            { records := [{ id := "r1", name := some "doc.txt",
                            parent_id := some "A", modified := some "t0",
                            extra := [] }],
              nameIndex := [], indexedParents := [] }
            [{ id := "r1", name := some "doc.txt", parent_id := some "A",
               modified := some "t0", extra := [] }]
            "B" "t1"
    ∧ getFileById
        (pasteCutFinal
          { records := [{ id := "r1", name := some "doc.txt",
                          parent_id := some "A", modified := some "t0",
                          extra := [] }],
            nameIndex := [], indexedParents := [] }
          [{ id := "r1", name := some "doc.txt", parent_id := some "A",
             modified := some "t0", extra := [] }]
          "B" "t1")
        "r1"
        = some { id := "r1", name := some "doc.txt", parent_id := some "B",
                 modified := some "t1", extra := [] } := by
  refine ⟨by decide, by decide, by decide, by decide⟩

/-- C5 (amended): the cut-paste is applied as two write scopes — first
`deleteFilesByIds` commits, then `insertFiles` commits.  Between the two, a
reader observes every clipboard record as deleted while its rewritten version
is not yet inserted; only after the second transaction does each record
reappear, with the same id, the target parent and the new modification
time. -/
theorem C5_paste_cut_two_transactions (s : St) (clipboard : List FileRecord)
    (target now : String)
    (hnd : (clipboard.map (fun it => it.id)).Nodup) :
    (∀ it ∈ clipboard,
        getFileById (pasteCutIntermediate s clipboard) it.id = none)
    ∧ (∀ it ∈ clipboard,
        getFileById (pasteCutFinal s clipboard target now) it.id
          = some (makeMove target now it)) := by
  constructor
  · intro it hit
    exact findById_delete_fold _ s.records it.id
      (List.mem_map_of_mem _ hit)
  · intro it hit
    have hnd2 : ((clipboard.map (makeMove target now)).map
        (fun x => x.id)).Nodup := by
      rw [List.map_map]
      exact hnd
    exact findById_insert_list _ _ (makeMove target now it) hnd2
      (List.mem_map_of_mem _ hit)

/-- Witness for the amended C5 at the counterexample's concrete input. -/
theorem C5_paste_cut_two_transactions_witness :
    (∀ it ∈ ([{ id := "r1", name := some "doc.txt", parent_id := some "A",
                modified := some "t0", extra := [] }] : List FileRecord),
        getFileById
            (pasteCutIntermediate
              { records := [{ id := "r1", name := some "doc.txt",
                              parent_id := some "A", modified := some "t0",
                              extra := [] }],
                nameIndex := [], indexedParents := [] }
              [{ id := "r1", name := some "doc.txt", parent_id := some "A",
                 modified := some "t0", extra := [] }])
            it.id = none)
    ∧ (∀ it ∈ ([{ id := "r1", name := some "doc.txt", parent_id := some "A",
                  modified := some "t0", extra := [] }] : List FileRecord),
        getFileById
            (pasteCutFinal
              { records := [{ id := "r1", name := some "doc.txt",
                              parent_id := some "A", modified := some "t0",
                              extra := [] }],
                nameIndex := [], indexedParents := [] }
              [{ id := "r1", name := some "doc.txt", parent_id := some "A",
                 modified := some "t0", extra := [] }]
              "B" "t1")
            it.id = some (makeMove "B" "t1" it)) :=
  C5_paste_cut_two_transactions _ _ "B" "t1" (by decide)

/-! ### C9: postings written by `insertFiles` -/

theorem nodup_append_singleton {α : Type} (l : List α) (a : α)
    (h : l.Nodup) (ha : a ∉ l) : (l ++ [a]).Nodup := by
  refine List.Nodup.append h (List.nodup_singleton a) ?_
  intro x hx hx'
  rw [List.mem_singleton] at hx'
  subst hx'
  exact ha hx

/-- Membership in the token map: id `i` is registered under token `t`. -/
def tmMem (m : List (String × List String)) (t i : String) : Prop :=
  ∃ pr ∈ m, pr.1 = t ∧ i ∈ pr.2

theorem tmMem_mapAddId (tok fid : String) :
    ∀ (m : List (String × List String)) (t i : String),
      tmMem (mapAddId m tok fid) t i ↔ tmMem m t i ∨ (t = tok ∧ i = fid) := by
  intro m
  induction m with
  | nil =>
    intro t i
    simp [mapAddId, tmMem, eq_comm]
  | cons a rest ih =>
    intro t i
    obtain ⟨ak, aids⟩ := a
    rw [mapAddId]
    by_cases hk : ak = tok
    · rw [if_pos (by simpa using hk)]
      by_cases hin : fid ∈ aids
      · rw [if_pos hin]
        constructor
        · rintro ⟨pr, hpr, h1, h2⟩
          exact Or.inl ⟨pr, hpr, h1, h2⟩
        · rintro (⟨pr, hpr, h1, h2⟩ | ⟨rfl, rfl⟩)
          · exact ⟨pr, hpr, h1, h2⟩
          · exact ⟨(ak, aids), List.mem_cons_self _ _, hk, hin⟩
      · rw [if_neg hin]
        constructor
        · rintro ⟨pr, hpr, h1, h2⟩
          rcases List.mem_cons.mp hpr with rfl | hpr
          · simp only [List.mem_append, List.mem_singleton] at h2
            rcases h2 with h2 | rfl
            · exact Or.inl ⟨(ak, aids), List.mem_cons_self _ _, h1, h2⟩
            · exact Or.inr ⟨h1.symm.trans hk, rfl⟩
          · exact Or.inl ⟨pr, List.mem_cons_of_mem _ hpr, h1, h2⟩
        · rintro (⟨pr, hpr, h1, h2⟩ | ⟨ht, hi⟩)
          · rcases List.mem_cons.mp hpr with rfl | hpr
            · exact ⟨(ak, aids ++ [fid]), List.mem_cons_self _ _, h1,
                List.mem_append_left _ h2⟩
            · exact ⟨pr, List.mem_cons_of_mem _ hpr, h1, h2⟩
          · exact ⟨(ak, aids ++ [fid]), List.mem_cons_self _ _,
              hk.trans ht.symm,
              by rw [hi]
                 exact List.mem_append_right _ (List.mem_singleton_self fid)⟩
    · rw [if_neg (by simpa using hk)]
      constructor
      · rintro ⟨pr, hpr, h1, h2⟩
        rcases List.mem_cons.mp hpr with rfl | hpr
        · exact Or.inl ⟨(ak, aids), List.mem_cons_self _ _, h1, h2⟩
        · rcases (ih t i).mp ⟨pr, hpr, h1, h2⟩ with ⟨pr2, hpr2, h3, h4⟩ | hh
          · exact Or.inl ⟨pr2, List.mem_cons_of_mem _ hpr2, h3, h4⟩
          · exact Or.inr hh
      · rintro (⟨pr, hpr, h1, h2⟩ | hh)
        · rcases List.mem_cons.mp hpr with rfl | hpr
          · exact ⟨(ak, aids), List.mem_cons_self _ _, h1, h2⟩
          · rcases (ih t i).mpr (Or.inl ⟨pr, hpr, h1, h2⟩) with ⟨pr2, hpr2, h3, h4⟩
            exact ⟨pr2, List.mem_cons_of_mem _ hpr2, h3, h4⟩
        · rcases (ih t i).mpr (Or.inr hh) with ⟨pr2, hpr2, h3, h4⟩
          exact ⟨pr2, List.mem_cons_of_mem _ hpr2, h3, h4⟩

theorem keys_mapAddId (tok fid : String) :
    ∀ m : List (String × List String),
      (mapAddId m tok fid).map Prod.fst
        = if tok ∈ m.map Prod.fst then m.map Prod.fst
          else m.map Prod.fst ++ [tok] := by
  intro m
  induction m with
  | nil => simp [mapAddId]
  | cons a rest ih =>
    obtain ⟨ak, aids⟩ := a
    rw [mapAddId]
    by_cases hk : ak = tok
    · subst hk
      rw [if_pos (by simp)]
      split <;> simp
    · rw [if_neg (by simpa using hk)]
      simp only [List.map_cons, ih]
      by_cases hmem : tok ∈ rest.map Prod.fst
      · rw [if_pos hmem, if_pos (by simp [hmem])]
      · rw [if_neg hmem, if_neg (by simp [hmem, Ne.symm hk]), List.cons_append]

theorem keysNodup_mapAddId (tok fid : String)
    (m : List (String × List String)) (h : (m.map Prod.fst).Nodup) :
    ((mapAddId m tok fid).map Prod.fst).Nodup := by
  rw [keys_mapAddId]
  split
  · exact h
  · rename_i hnin
    exact nodup_append_singleton _ _ h hnin

theorem valsNodup_mapAddId (tok fid : String)
    (m : List (String × List String)) (h : ∀ pr ∈ m, pr.2.Nodup) :
    ∀ pr ∈ mapAddId m tok fid, pr.2.Nodup := by
  induction m with
  | nil =>
    intro pr hpr
    rcases List.mem_singleton.mp hpr with rfl
    simp
  | cons a rest ih =>
    obtain ⟨ak, aids⟩ := a
    rw [mapAddId]
    by_cases hk : ak = tok
    · rw [if_pos (by simpa using hk)]
      intro pr hpr
      rcases List.mem_cons.mp hpr with rfl | hpr
      · by_cases hin : fid ∈ aids
        · simpa [hin] using h (ak, aids) (List.mem_cons_self _ _)
        · have haids : aids.Nodup := h (ak, aids) (List.mem_cons_self _ _)
          simpa [hin] using nodup_append_singleton aids fid haids hin
      · exact h pr (List.mem_cons_of_mem _ hpr)
    · rw [if_neg (by simpa using hk)]
      intro pr hpr
      rcases List.mem_cons.mp hpr with rfl | hpr
      · exact h (ak, aids) (List.mem_cons_self _ _)
      · exact ih (fun q hq => h q (List.mem_cons_of_mem _ hq)) pr hpr

theorem tmMem_foldTokens (fid : String) :
    ∀ (ts : List String) (m : List (String × List String)) (t i : String),
      tmMem (ts.foldl (fun m tok => mapAddId m tok fid) m) t i
        ↔ tmMem m t i ∨ (t ∈ ts ∧ i = fid) := by
  intro ts
  induction ts with
  | nil => simp
  | cons tok rest ih =>
    intro m t i
    rw [List.foldl_cons, ih, tmMem_mapAddId]
    simp only [List.mem_cons]
    tauto

theorem keysNodup_foldTokens (fid : String) :
    ∀ (ts : List String) (m : List (String × List String)),
      (m.map Prod.fst).Nodup →
      ((ts.foldl (fun m tok => mapAddId m tok fid) m).map Prod.fst).Nodup := by
  intro ts
  induction ts with
  | nil => intro m h; exact h
  | cons tok rest ih =>
    intro m h
    exact ih _ (keysNodup_mapAddId tok fid m h)

theorem valsNodup_foldTokens (fid : String) :
    ∀ (ts : List String) (m : List (String × List String)),
      (∀ pr ∈ m, pr.2.Nodup) →
      ∀ pr ∈ ts.foldl (fun m tok => mapAddId m tok fid) m, pr.2.Nodup := by
  intro ts
  induction ts with
  | nil => intro m h; exact h
  | cons tok rest ih =>
    intro m h
    exact ih _ (valsNodup_mapAddId tok fid m h)

theorem buildTrigrams_empty : buildTrigrams "" = [] := by decide

theorem tmMem_tokenMapStep (m : List (String × List String)) (it : FileRecord)
    (t i : String) :
    tmMem (tokenMapStep m it) t i
      ↔ tmMem m t i
        ∨ (it.id ≠ "" ∧ i = it.id
            ∧ t ∈ buildTrigrams (recordTrimmedName it)) := by
  simp only [tokenMapStep]
  by_cases hg : recordTrimmedName it = "" ∨ it.id = ""
  · rw [if_pos hg]
    have hno : ¬(it.id ≠ "" ∧ i = it.id
        ∧ t ∈ buildTrigrams (recordTrimmedName it)) := by
      rintro ⟨hne, -, hmem⟩
      rcases hg with hg | hg
      · rw [hg, buildTrigrams_empty] at hmem
        exact absurd hmem (List.not_mem_nil t)
      · exact hne hg
    exact ⟨fun hm => Or.inl hm, fun hm => hm.resolve_right hno⟩
  · rw [if_neg hg]
    push_neg at hg
    by_cases htr : buildTrigrams (recordTrimmedName it) = []
    · rw [if_pos htr]
      have hno : ¬(it.id ≠ "" ∧ i = it.id
          ∧ t ∈ buildTrigrams (recordTrimmedName it)) := by
        rintro ⟨-, -, hmem⟩
        rw [htr] at hmem
        exact absurd hmem (List.not_mem_nil t)
      exact ⟨fun hm => Or.inl hm, fun hm => hm.resolve_right hno⟩
    · rw [if_neg htr, tmMem_foldTokens]
      constructor
      · rintro (hm | ⟨htok, hi⟩)
        · exact Or.inl hm
        · exact Or.inr ⟨hg.2, hi, htok⟩
      · rintro (hm | ⟨-, hi, htok⟩)
        · exact Or.inl hm
        · exact Or.inr ⟨htok, hi⟩

theorem keysNodup_tokenMapStep (m : List (String × List String))
    (it : FileRecord) (h : (m.map Prod.fst).Nodup) :
    ((tokenMapStep m it).map Prod.fst).Nodup := by
  simp only [tokenMapStep]
  split
  · exact h
  · split
    · exact h
    · exact keysNodup_foldTokens it.id _ m h

theorem valsNodup_tokenMapStep (m : List (String × List String))
    (it : FileRecord) (h : ∀ pr ∈ m, pr.2.Nodup) :
    ∀ pr ∈ tokenMapStep m it, pr.2.Nodup := by
  simp only [tokenMapStep]
  split
  · exact h
  · split
    · exact h
    · exact valsNodup_foldTokens it.id _ m h

theorem tmMem_tokenMapOf_go :
    ∀ (items : List FileRecord) (m : List (String × List String))
      (t i : String),
      tmMem (items.foldl tokenMapStep m) t i
        ↔ tmMem m t i
          ∨ ∃ it ∈ items, it.id ≠ "" ∧ i = it.id
              ∧ t ∈ buildTrigrams (recordTrimmedName it) := by
  intro items
  induction items with
  | nil => simp
  | cons x xs ih =>
    intro m t i
    rw [List.foldl_cons, ih, tmMem_tokenMapStep]
    constructor
    · rintro ((hm | hx) | ⟨it, hit, h⟩)
      · exact Or.inl hm
      · exact Or.inr ⟨x, List.mem_cons_self _ _, hx⟩
      · exact Or.inr ⟨it, List.mem_cons_of_mem _ hit, h⟩
    · rintro (hm | ⟨it, hit, h⟩)
      · exact Or.inl (Or.inl hm)
      · rcases List.mem_cons.mp hit with rfl | hit
        · exact Or.inl (Or.inr h)
        · exact Or.inr ⟨it, hit, h⟩

theorem tmMem_tokenMapOf (items : List FileRecord) (t i : String) :
    tmMem (tokenMapOf items) t i
      ↔ ∃ it ∈ items, it.id ≠ "" ∧ i = it.id
          ∧ t ∈ buildTrigrams (recordTrimmedName it) := by
  rw [tokenMapOf, tmMem_tokenMapOf_go]
  have : ¬tmMem [] t i := by rintro ⟨pr, hpr, -⟩; exact List.not_mem_nil pr hpr
  tauto

theorem keysNodup_tokenMapOf (items : List FileRecord) :
    ((tokenMapOf items).map Prod.fst).Nodup := by
  rw [tokenMapOf]
  have h : ∀ (l : List FileRecord) (m : List (String × List String)),
      (m.map Prod.fst).Nodup → ((l.foldl tokenMapStep m).map Prod.fst).Nodup := by
    intro l
    induction l with
    | nil => intro m h; exact h
    | cons x xs ih => intro m h; exact ih _ (keysNodup_tokenMapStep m x h)
  exact h items [] (by simp)

theorem valsNodup_tokenMapOf (items : List FileRecord) :
    ∀ pr ∈ tokenMapOf items, pr.2.Nodup := by
  rw [tokenMapOf]
  have h : ∀ (l : List FileRecord) (m : List (String × List String)),
      (∀ pr ∈ m, pr.2.Nodup) → ∀ pr ∈ l.foldl tokenMapStep m, pr.2.Nodup := by
    intro l
    induction l with
    | nil => intro m h; exact h
    | cons x xs ih => intro m h; exact ih _ (valsNodup_tokenMapStep m x h)
  exact h items [] (by simp)

theorem foldl_append_eq_flatMap {α β : Type} (f : α → List β) :
    ∀ (l : List α) (acc : List β),
      l.foldl (fun acc pr => acc ++ f pr) acc = acc ++ l.flatMap f := by
  intro l
  induction l with
  | nil => intro acc; simp
  | cons x xs ih =>
    intro acc
    rw [List.foldl_cons, ih, List.flatMap_cons, List.append_assoc]

/-- `updateNameIndexForItems` resolves each posting's `parent_id` with
`items.find(item => item.id === fileId)?.parent_id ?? null`. -/
def parentOf (items : List FileRecord) (fid : String) : Option String :=
  (items.find? (fun it => it.id == fid)).bind (fun it => it.parent_id)

theorem nameIndexPuts_eq_flatMap (items : List FileRecord) :
    nameIndexPuts items
      = (tokenMapOf items).flatMap
          (fun pr => pr.2.map (fun fid =>
            { token := pr.1, fileId := fid,
              parent_id := parentOf items fid })) := by
  rw [nameIndexPuts, foldl_append_eq_flatMap, List.nil_append]
  rfl

theorem find_by_id_of_nodup :
    ∀ (items : List FileRecord),
      ((items.map (fun x => x.id)).Nodup) →
      ∀ it ∈ items, items.find? (fun x => x.id == it.id) = some it := by
  intro items
  induction items with
  | nil => intro _ it hit; exact absurd hit (List.not_mem_nil it)
  | cons x xs ih =>
    intro hnd it hit
    rw [List.map_cons, List.nodup_cons] at hnd
    rcases List.mem_cons.mp hit with rfl | hit
    · exact List.find?_cons_of_pos _ (by simp)
    · rw [List.find?_cons_of_neg, ih hnd.2 it hit]
      intro hcontra
      have : x.id = it.id := by simpa using hcontra
      exact hnd.1 (this ▸ List.mem_map_of_mem (fun y => y.id) hit)

theorem parentOf_eq (items : List FileRecord)
    (hnd : (items.map (fun x => x.id)).Nodup) (it : FileRecord)
    (hit : it ∈ items) : parentOf items it.id = it.parent_id := by
  rw [parentOf, find_by_id_of_nodup items hnd it hit]
  rfl

/-- C9: `insertFiles` performs its record puts and its posting puts inside one
transition (both stores in one transaction); the postings written are exactly
one per distinct trigram of each batch record's trimmed name — keyed
`(token, fileId)` without duplicates — each carrying that record's own
`parent_id` (`none` when the record has none); records with an empty id or a
name whose trimmed form is shorter than 3 characters contribute none. -/
theorem C9_insertFiles_postings (s : St) (items : List FileRecord)
    (hnd : (items.map (fun x => x.id)).Nodup) :
    (∀ e : NameIndexRecord,
        e ∈ nameIndexPuts items
          ↔ ∃ it ∈ items, it.id ≠ ""
              ∧ e.token ∈ buildTrigrams (recordTrimmedName it)
              ∧ e.fileId = it.id ∧ e.parent_id = it.parent_id)
    ∧ ((nameIndexPuts items).map (fun e => (e.token, e.fileId))).Nodup
    ∧ insertFiles s items
        = { records := items.foldl putRecord s.records,
            nameIndex := (nameIndexPuts items).foldl putPosting s.nameIndex,
            indexedParents := s.indexedParents } := by
  refine ⟨?_, ?_, rfl⟩
  · intro e
    rw [nameIndexPuts_eq_flatMap]
    simp only [List.mem_flatMap, List.mem_map]
    constructor
    · rintro ⟨pr, hpr, fid, hfid, rfl⟩
      have hmem : tmMem (tokenMapOf items) pr.1 fid := ⟨pr, hpr, rfl, hfid⟩
      rw [tmMem_tokenMapOf] at hmem
      rcases hmem with ⟨it, hit, hne, rfl, htok⟩
      exact ⟨it, hit, hne, htok, rfl, parentOf_eq items hnd it hit⟩
    · rintro ⟨it, hit, hne, htok, hfid, hpid⟩
      have hmem : tmMem (tokenMapOf items) e.token it.id := by
        rw [tmMem_tokenMapOf]
        exact ⟨it, hit, hne, rfl, htok⟩
      rcases hmem with ⟨pr, hpr, hpr1, hpr2⟩
      refine ⟨pr, hpr, it.id, hpr2, ?_⟩
      have hpo : parentOf items it.id = it.parent_id :=
        parentOf_eq items hnd it hit
      cases e with
      | mk tk fi pi =>
        simp only at hfid hpid hpr1 ⊢
        rw [hpr1, hfid, hpid, hpo]
  · have hpairs : (nameIndexPuts items).map (fun e => (e.token, e.fileId))
        = (tokenMapOf items).flatMap
            (fun pr => pr.2.map (fun fid => (pr.1, fid))) := by
      rw [nameIndexPuts_eq_flatMap, List.map_flatMap]
      refine List.flatMap_congr ?_
      intro pr _
      rw [List.map_map]
      rfl
    rw [hpairs, List.nodup_flatMap]
    constructor
    · intro pr hpr
      exact List.Nodup.map
        (fun a b hab => by simpa using congrArg Prod.snd hab)
        (valsNodup_tokenMapOf items pr hpr)
    · have hkeys : (tokenMapOf items).Pairwise (fun a b => a.1 ≠ b.1) :=
        List.pairwise_map.mp (keysNodup_tokenMapOf items)
      refine hkeys.imp ?_
      intro a b hab x hxa hxb
      rcases List.mem_map.mp hxa with ⟨fa, -, rfl⟩
      rcases List.mem_map.mp hxb with ⟨fb, -, hfb⟩
      exact hab (by simpa using congrArg Prod.fst hfb.symm)

/-- Witness for C9: a batch with a normal record, a short-named record and a
record without an id, inserted into the empty state. -/
theorem C9_insertFiles_postings_witness :
    (∀ e : NameIndexRecord,
        e ∈ nameIndexPuts
            [{ id := "a", name := some "abcd", parent_id := some "P",
               modified := none, extra := [] },
             { id := "b", name := some "xy", parent_id := some "Q",
               modified := none, extra := [] },
             { id := "", name := some "ghost", parent_id := some "P",
               modified := none, extra := [] }]
          ↔ ∃ it ∈ ([{ id := "a", name := some "abcd", parent_id := some "P",
                       modified := none, extra := [] },
                     { id := "b", name := some "xy", parent_id := some "Q",
                       modified := none, extra := [] },
                     { id := "", name := some "ghost", parent_id := some "P",
                       modified := none, extra := [] }] : List FileRecord),
              it.id ≠ ""
                ∧ e.token ∈ buildTrigrams (recordTrimmedName it)
                ∧ e.fileId = it.id ∧ e.parent_id = it.parent_id)
    ∧ ((nameIndexPuts
          [{ id := "a", name := some "abcd", parent_id := some "P",
             modified := none, extra := [] },
           { id := "b", name := some "xy", parent_id := some "Q",
             modified := none, extra := [] },
           { id := "", name := some "ghost", parent_id := some "P",
             modified := none, extra := [] }]).map
          (fun e => (e.token, e.fileId))).Nodup
    ∧ insertFiles { records := [], nameIndex := [], indexedParents := [] }
          [{ id := "a", name := some "abcd", parent_id := some "P",
             modified := none, extra := [] },
           { id := "b", name := some "xy", parent_id := some "Q",
             modified := none, extra := [] },
           { id := "", name := some "ghost", parent_id := some "P",
             modified := none, extra := [] }]
        = { records :=
              [{ id := "a", name := some "abcd", parent_id := some "P",
                 modified := none, extra := [] },
               { id := "b", name := some "xy", parent_id := some "Q",
                 modified := none, extra := [] },
               { id := "", name := some "ghost", parent_id := some "P",
                 modified := none, extra := [] }].foldl putRecord [],
            nameIndex :=
              (nameIndexPuts
                [{ id := "a", name := some "abcd", parent_id := some "P",
                   modified := none, extra := [] },
                 { id := "b", name := some "xy", parent_id := some "Q",
                   modified := none, extra := [] },
                 { id := "", name := some "ghost", parent_id := some "P",
                   modified := none, extra := [] }]).foldl putPosting [],
            indexedParents := [] } :=
  C9_insertFiles_postings
    { records := [], nameIndex := [], indexedParents := [] }
    [{ id := "a", name := some "abcd", parent_id := some "P",
       modified := none, extra := [] },
     { id := "b", name := some "xy", parent_id := some "Q",
       modified := none, extra := [] },
     { id := "", name := some "ghost", parent_id := some "P",
       modified := none, extra := [] }]
    (by decide)

/-! ### C3: singleflight index building

`ensureParentIndexed` runs on the single-threaded JS event loop: the prefix
up to the first `await` (memo check, in-flight-map check, promise creation
and registration) executes atomically, and concurrent callers interleave
only at `await` points.  The machine below models one parent `p`: each of
`M` concurrent callers takes one atomic `call` step (that synchronous
prefix), and a `finish` event commits the in-flight build's transaction and
resolves every awaiting caller.  `scans` counts started scan-and-write
passes.  (On the successful path the initiator also awaits the same promise,
so it too is `awaiting` until `finish`.) -/

/-- Program point of one `ensureParentIndexed(p)` caller. -/
inductive CallerPC where
  | start
  | awaiting
  | done
deriving DecidableEq, Repr

/-- Machine state: the store state, whether a build for `p` is in flight
(the `indexingInFlight` map entry), how many scan-and-write passes were
started, and each caller's program point. -/
structure SFState where
  st : St
  inFlight : Bool
  scans : Nat
  callers : List CallerPC
deriving DecidableEq, Repr

/-- Scheduler events: caller `i` runs its synchronous prefix, or the
in-flight build completes. -/
inductive SFEvent where
  | call (i : Nat)
  | finish
deriving DecidableEq, Repr

/-- One interleaving step.  A `call` by a caller still at `start` returns at
once when `p` is memoized, joins the in-flight build when one exists, and
otherwise starts the (single) build; `finish` commits the build pass
(`ensureBuildPass`) and resolves all awaiting callers. -/
def sfStep (p : String) (s : SFState) : SFEvent → SFState
  | SFEvent.call i =>
    if s.callers[i]? = some CallerPC.start then
      if p ∈ s.st.indexedParents then
        { s with callers := s.callers.set i CallerPC.done }
      else if s.inFlight then
        { s with callers := s.callers.set i CallerPC.awaiting }
      else
        { s with scans := s.scans + 1, inFlight := true,
                 callers := s.callers.set i CallerPC.awaiting }
    else s
  | SFEvent.finish =>
    if s.inFlight then
      { s with st := ensureBuildPass s.st p, inFlight := false,
               callers := s.callers.map
                 (fun c => if c = CallerPC.awaiting then CallerPC.done else c) }
    else s

/-- Run a schedule. -/
def sfRun (p : String) (s : SFState) (es : List SFEvent) : SFState :=
  es.foldl (sfStep p) s

/-- `M` concurrent callers, none started, no build in flight. -/
def sfInit (st0 : St) (M : Nat) : SFState :=
  { st := st0, inFlight := false, scans := 0,
    callers := List.replicate M CallerPC.start }

/-- Invariant of the singleflight machine for an initially un-indexed `p`. -/
def sfInv (st0 : St) (p : String) (M : Nat) (s : SFState) : Prop :=
  s.callers.length = M
  ∧ (s.inFlight = true → p ∉ s.st.indexedParents)
  ∧ s.scans = (if s.inFlight = true ∨ p ∈ s.st.indexedParents then 1 else 0)
  ∧ (s.inFlight = false → ∀ c ∈ s.callers, c ≠ CallerPC.awaiting)
  ∧ (p ∉ s.st.indexedParents → s.st = st0)
  ∧ (p ∈ s.st.indexedParents → s.st = ensureBuildPass st0 p)
  ∧ (s.inFlight = false → p ∉ s.st.indexedParents →
      ∀ c ∈ s.callers, c = CallerPC.start)

theorem sfInv_init (st0 : St) (p : String) (M : Nat)
    (h0 : p ∉ st0.indexedParents) : sfInv st0 p M (sfInit st0 M) := by
  refine ⟨by simp [sfInit], fun h => by simp [sfInit]; exact h0, ?_, ?_, ?_, ?_, ?_⟩
  · simp [sfInit, h0]
  · intro _ c hc
    rw [List.eq_of_mem_replicate hc]
    intro hcontra
    exact absurd hcontra (by decide)
  · intro _
    rfl
  · intro hmem
    exact absurd hmem h0
  · intro _ _ c hc
    exact List.eq_of_mem_replicate hc

theorem sfStep_call_ns (p : String) (s : SFState) (i : Nat)
    (h : ¬s.callers[i]? = some CallerPC.start) :
    sfStep p s (SFEvent.call i) = s := by
  simp [sfStep, h]

theorem sfStep_call_indexed (p : String) (s : SFState) (i : Nat)
    (h1 : s.callers[i]? = some CallerPC.start)
    (h2 : p ∈ s.st.indexedParents) :
    sfStep p s (SFEvent.call i)
      = { s with callers := s.callers.set i CallerPC.done } := by
  simp [sfStep, h1, h2]

theorem sfStep_call_join (p : String) (s : SFState) (i : Nat)
    (h1 : s.callers[i]? = some CallerPC.start)
    (h2 : p ∉ s.st.indexedParents) (h3 : s.inFlight = true) :
    sfStep p s (SFEvent.call i)
      = { s with callers := s.callers.set i CallerPC.awaiting } := by
  simp [sfStep, h1, h2, h3]

theorem sfStep_call_build (p : String) (s : SFState) (i : Nat)
    (h1 : s.callers[i]? = some CallerPC.start)
    (h2 : p ∉ s.st.indexedParents) (h3 : s.inFlight = false) :
    sfStep p s (SFEvent.call i)
      = { s with scans := s.scans + 1, inFlight := true,
                 callers := s.callers.set i CallerPC.awaiting } := by
  simp [sfStep, h1, h2, h3]

theorem sfStep_finish_pos (p : String) (s : SFState)
    (h : s.inFlight = true) :
    sfStep p s SFEvent.finish
      = { s with st := ensureBuildPass s.st p, inFlight := false,
                 callers := s.callers.map
                   (fun c => if c = CallerPC.awaiting then CallerPC.done
                             else c) } := by
  simp [sfStep, h]

theorem sfStep_finish_neg (p : String) (s : SFState)
    (h : s.inFlight = false) : sfStep p s SFEvent.finish = s := by
  simp [sfStep, h]

theorem sfInv_step (st0 : St) (p : String) (M : Nat) (s : SFState)
    (e : SFEvent) (hinv : sfInv st0 p M s) :
    sfInv st0 p M (sfStep p s e) := by
  obtain ⟨h1, h2, h3, h4, h5, h6, h7⟩ := hinv
  cases e with
  | call i =>
    by_cases hc : s.callers[i]? = some CallerPC.start
    · by_cases hidx : p ∈ s.st.indexedParents
      · rw [sfStep_call_indexed p s i hc hidx]
        refine ⟨by simpa using h1, h2, h3, ?_, h5, h6, ?_⟩
        · intro hfl c hcmem
          rcases List.mem_or_eq_of_mem_set hcmem with hcm | rfl
          · exact h4 hfl c hcm
          · intro hcontra
            exact absurd hcontra (by decide)
        · intro _ hni
          exact absurd hidx hni
      · by_cases hfl : s.inFlight = true
        · rw [sfStep_call_join p s i hc hidx hfl]
          refine ⟨by simpa using h1, h2, h3, ?_, h5, h6, ?_⟩
          · intro hfl'
            exact absurd (hfl'.symm.trans hfl) (by decide)
          · intro hfl'
            exact absurd (hfl'.symm.trans hfl) (by decide)
        · rw [Bool.not_eq_true] at hfl
          rw [sfStep_call_build p s i hc hidx hfl]
          have h30 : s.scans = 0 := by
            rw [h3]
            simp [hfl, hidx]
          refine ⟨by simpa using h1, ?_, ?_, ?_, h5, h6, ?_⟩
          · intro _
            exact hidx
          · simp [h30, hidx]
          · intro hfl'
            simp at hfl'
          · intro hfl'
            simp at hfl'
    · rw [sfStep_call_ns p s i hc]
      exact ⟨h1, h2, h3, h4, h5, h6, h7⟩
  | finish =>
    by_cases hfl : s.inFlight = true
    · rw [sfStep_finish_pos p s hfl]
      have hni : p ∉ s.st.indexedParents := h2 hfl
      have hst : s.st = st0 := h5 hni
      have hmem : p ∈ (ensureBuildPass s.st p).indexedParents := by
        rw [ensureBuildPass]
        simp
      refine ⟨by simpa using h1, ?_, ?_, ?_, ?_, ?_, ?_⟩
      · intro hcontra
        simp at hcontra
      · rw [h3]
        simp [hfl, hmem]
      · intro _ c hcmem
        rcases List.mem_map.mp hcmem with ⟨c0, hc0, rfl⟩
        by_cases hc0a : c0 = CallerPC.awaiting
        · simp [hc0a]
        · simp [hc0a]
      · intro hni2
        exact absurd hmem hni2
      · intro _
        rw [hst]
      · intro _ hni2
        exact absurd hmem hni2
    · rw [Bool.not_eq_true] at hfl
      rw [sfStep_finish_neg p s hfl]
      exact ⟨h1, h2, h3, h4, h5, h6, h7⟩

theorem sfInv_run (st0 : St) (p : String) (M : Nat) :
    ∀ (es : List SFEvent) (s : SFState), sfInv st0 p M s →
      sfInv st0 p M (sfRun p s es) := by
  intro es
  induction es with
  | nil => intro s h; exact h
  | cons e rest ih =>
    intro s h
    exact ih _ (sfInv_step st0 p M s e h)

theorem notStart_stable (p : String) (s : SFState) (e : SFEvent) (i : Nat)
    (h : ¬s.callers[i]? = some CallerPC.start) :
    ¬(sfStep p s e).callers[i]? = some CallerPC.start := by
  cases e with
  | call j =>
    by_cases hc : s.callers[j]? = some CallerPC.start
    · have hij : i ≠ j := by
        intro hij
        rw [hij] at h
        exact h hc
      by_cases hidx : p ∈ s.st.indexedParents
      · rw [sfStep_call_indexed p s j hc hidx]
        simpa [List.getElem?_set_ne (Ne.symm hij)] using h
      · by_cases hfl : s.inFlight = true
        · rw [sfStep_call_join p s j hc hidx hfl]
          simpa [List.getElem?_set_ne (Ne.symm hij)] using h
        · rw [Bool.not_eq_true] at hfl
          rw [sfStep_call_build p s j hc hidx hfl]
          simpa [List.getElem?_set_ne (Ne.symm hij)] using h
    · rw [sfStep_call_ns p s j hc]
      exact h
  | finish =>
    by_cases hfl : s.inFlight = true
    · rw [sfStep_finish_pos p s hfl]
      simp only [List.getElem?_map]
      intro hcontra
      rcases hmap : s.callers[i]? with _ | c0
      · rw [hmap] at hcontra
        exact absurd hcontra (by simp)
      · rw [hmap] at hcontra
        have this : (if c0 = CallerPC.awaiting then CallerPC.done else c0)
            = CallerPC.start := by simpa using hcontra
        by_cases hc0a : c0 = CallerPC.awaiting
        · rw [if_pos hc0a] at this
          exact absurd this (by decide)
        · rw [if_neg hc0a] at this
          rw [this] at hmap
          exact h hmap
    · rw [Bool.not_eq_true] at hfl
      rw [sfStep_finish_neg p s hfl]
      exact h

theorem notStart_after_call (p : String) (s : SFState) (i : Nat) :
    ¬(sfStep p s (SFEvent.call i)).callers[i]? = some CallerPC.start := by
  by_cases hc : s.callers[i]? = some CallerPC.start
  · have hlen : i < s.callers.length := by
      by_contra hge
      rw [List.getElem?_eq_none (by omega)] at hc
      exact absurd hc (by simp)
    by_cases hidx : p ∈ s.st.indexedParents
    · rw [sfStep_call_indexed p s i hc hidx]
      simp [List.getElem?_set_self, hlen]
    · by_cases hfl : s.inFlight = true
      · rw [sfStep_call_join p s i hc hidx hfl]
        simp [List.getElem?_set_self, hlen]
      · rw [Bool.not_eq_true] at hfl
        rw [sfStep_call_build p s i hc hidx hfl]
        simp [List.getElem?_set_self, hlen]
  · rw [sfStep_call_ns p s i hc]
    exact hc

theorem notStart_run (p : String) :
    ∀ (es : List SFEvent) (s : SFState) (i : Nat),
      ¬s.callers[i]? = some CallerPC.start →
      ¬(sfRun p s es).callers[i]? = some CallerPC.start := by
  intro es
  induction es with
  | nil => intro s i h; exact h
  | cons e rest ih =>
    intro s i h
    exact ih _ i (notStart_stable p s e i h)

/-- C3: for an un-indexed parent `p` and `M ≥ 1` concurrent
`ensureParentIndexed(p)` callers, under every interleaving in which each
caller gets to run and no build is left in flight, exactly one
scan-and-write pass is performed, the resulting state is that single build's
outcome (`ensureParentIndexed st0 p`), and every caller resolves; moreover a
call finding `p` already memoized returns immediately without touching the
stores (state, scan count and in-flight flag all unchanged). -/
theorem C3_ensureParentIndexed_singleflight (st0 : St) (p : String) (M : Nat)
    (es : List SFEvent) (h0 : p ∉ st0.indexedParents) (hM : 0 < M)
    (hcalls : ∀ i < M, SFEvent.call i ∈ es)
    (hfin : (sfRun p (sfInit st0 M) es).inFlight = false) :
    (sfRun p (sfInit st0 M) es).scans = 1
    ∧ (sfRun p (sfInit st0 M) es).st = ensureParentIndexed st0 p
    ∧ (∀ c ∈ (sfRun p (sfInit st0 M) es).callers, c = CallerPC.done)
    ∧ (∀ (s : SFState) (i : Nat), p ∈ s.st.indexedParents →
        (sfStep p s (SFEvent.call i)).st = s.st
        ∧ (sfStep p s (SFEvent.call i)).scans = s.scans
        ∧ (sfStep p s (SFEvent.call i)).inFlight = s.inFlight) := by
  obtain ⟨h1, h2, h3, h4, h5, h6, h7⟩ :=
    sfInv_run st0 p M es (sfInit st0 M) (sfInv_init st0 p M h0)
  have hns : ∀ i, i < M →
      ¬(sfRun p (sfInit st0 M) es).callers[i]? = some CallerPC.start := by
    intro i hi
    obtain ⟨es1, es2, hsplit⟩ := List.append_of_mem (hcalls i hi)
    rw [hsplit, sfRun, List.foldl_append, List.foldl_cons]
    exact notStart_run p es2 _ i (notStart_after_call p _ i)
  have hidx : p ∈ (sfRun p (sfInit st0 M) es).st.indexedParents := by
    by_contra hni
    have hall := h7 hfin hni
    have hlen0 : 0 < (sfRun p (sfInit st0 M) es).callers.length := by
      rw [h1]
      exact hM
    obtain ⟨c0, hc0⟩ : ∃ c0,
        (sfRun p (sfInit st0 M) es).callers[0]? = some c0 := by
      rw [List.getElem?_eq_getElem hlen0]
      exact ⟨_, rfl⟩
    have hst0 := hall c0 (List.getElem?_mem hc0)
    exact hns 0 hM (by rw [hc0, hst0])
  refine ⟨?_, ?_, ?_, ?_⟩
  · rw [h3]
    simp [hidx]
  · rw [h6 hidx, ensureParentIndexed, if_neg h0]
  · intro c hc
    obtain ⟨j, hj, hcj⟩ := List.mem_iff_getElem.mp hc
    have hj2 : j < M := h1 ▸ hj
    have hjq : (sfRun p (sfInit st0 M) es).callers[j]? = some c := by
      rw [List.getElem?_eq_getElem hj, hcj]
    have hnaw := h4 hfin c hc
    cases c with
    | start => exact absurd hjq (hns j hj2)
    | awaiting => exact absurd rfl hnaw
    | done => rfl
  · intro s i hidx2
    by_cases hc : s.callers[i]? = some CallerPC.start
    · rw [sfStep_call_indexed p s i hc hidx2]
      exact ⟨rfl, rfl, rfl⟩
    · rw [sfStep_call_ns p s i hc]
      exact ⟨rfl, rfl, rfl⟩

/-- Witness for C3: two concurrent callers on an empty store, schedule
`call 0, call 1, finish`. -/
theorem C3_ensureParentIndexed_singleflight_witness :
    (sfRun "p" (sfInit { records := [], nameIndex := [], indexedParents := [] } 2)
        [SFEvent.call 0, SFEvent.call 1, SFEvent.finish]).scans = 1
    ∧ (sfRun "p"
        (sfInit { records := [], nameIndex := [], indexedParents := [] } 2)
        [SFEvent.call 0, SFEvent.call 1, SFEvent.finish]).st
        = ensureParentIndexed
            { records := [], nameIndex := [], indexedParents := [] } "p"
    ∧ (∀ c ∈ (sfRun "p"
          (sfInit { records := [], nameIndex := [], indexedParents := [] } 2)
          [SFEvent.call 0, SFEvent.call 1, SFEvent.finish]).callers,
        c = CallerPC.done)
    ∧ (∀ (s : SFState) (i : Nat), "p" ∈ s.st.indexedParents →
        (sfStep "p" s (SFEvent.call i)).st = s.st
        ∧ (sfStep "p" s (SFEvent.call i)).scans = s.scans
        ∧ (sfStep "p" s (SFEvent.call i)).inFlight = s.inFlight) :=
  C3_ensureParentIndexed_singleflight
    { records := [], nameIndex := [], indexedParents := [] } "p" 2
    [SFEvent.call 0, SFEvent.call 1, SFEvent.finish]
    (by decide) (by decide) (by decide) (by decide)

/-! ### C4: the ingestion worker

Shallow embedding of the worker's `INIT_PARSE` handler: the stream arrives
as a list of text chunks; the handler keeps the partial trailing line in
`buffer`, splits off complete lines, skips blank lines, parses each line
(`JSON.parse` is the platform function, abstracted as a `parse` parameter),
emits one data event per parsed record, one non-fatal error event per failed
line, flushes `items` to `batchInsert` when 10000 are pending and once at the
end, ignores a final partial-line parse failure, and finally emits one
`complete` event carrying the processed count. -/

/-- JS whitespace for `String.prototype.trim` (common subset). -/
def isWsChar (c : Char) : Bool :=
  c = ' ' || c = '\t' || c = '\n' || c = '\r'

/-- `line.trim()` on character lists. -/
def trimChars (cs : List Char) : List Char :=
  ((cs.dropWhile isWsChar).reverse.dropWhile isWsChar).reverse

/-- `buffer.split("\n")` followed by `buffer = lines.pop()`: returns the
complete lines and the trailing partial line. -/
def splitLines : List Char → List (List Char) × List Char
  | [] => ([], [])
  | c :: rest =>
    if c = '\n' then
      ([] :: (splitLines rest).1, (splitLines rest).2)
    else
      match (splitLines rest).1 with
      | [] => ([], c :: (splitLines rest).2)
      | l :: lt => ((c :: l) :: lt, (splitLines rest).2)

/-- Worker state during the read loop. -/
structure WSt (R : Type) where
  buffer : List Char
  items : List R
  processed : Nat
  errors : Nat
  inserted : Nat

/-- The worker's observable outcome: records handed to `batchInsert`,
non-fatal error events, data events, and the `complete` event's total. -/
structure WOut where
  inserted : Nat
  errors : Nat
  dataEvents : Nat
  completeTotal : Nat
deriving DecidableEq, Repr

/-- The worker's batch flush threshold (`items.length >= 10000`). -/
def INGEST_FLUSH_SIZE : Nat := 10000

/-- Body of `for (const line of lines)`: skip blank lines; on parse success
push the record and report progress, on failure emit a non-fatal error. -/
def procLine {R : Type} (parse : List Char → Option R) (st : WSt R)
    (line : List Char) : WSt R :=
  if trimChars line = [] then st
  else
    match parse line with
    | some r =>
      { st with items := st.items ++ [r], processed := st.processed + 1 }
    | none => { st with errors := st.errors + 1 }

/-- One iteration of the read loop on a received chunk: flush a full batch,
append the chunk to the buffer, split off complete lines, keep the partial
line, process each complete line. -/
def feedChunk {R : Type} (parse : List Char → Option R) (st : WSt R)
    (chunk : List Char) : WSt R :=
  let st1 :=
    if INGEST_FLUSH_SIZE ≤ st.items.length then
      { st with inserted := st.inserted + st.items.length, items := [] }
    else st
  let pr := splitLines (st1.buffer ++ chunk)
  pr.1.foldl (procLine parse) { st1 with buffer := pr.2 }

/-- Stream end: best-effort parse of the remaining partial line (its failure
is silently ignored), flush remaining items, emit `complete` with the
processed total. -/
def finalizeWorker {R : Type} (parse : List Char → Option R) (st : WSt R) :
    WOut :=
  let st2 :=
    if trimChars st.buffer = [] then st
    else
      match parse st.buffer with
      | some r =>
        { st with items := st.items ++ [r], processed := st.processed + 1 }
      | none => st
  let inserted2 :=
    if 0 < st2.items.length then st2.inserted + st2.items.length
    else st2.inserted
  { inserted := inserted2, errors := st2.errors,
    dataEvents := st2.processed, completeTotal := st2.processed }

/-- The whole `INIT_PARSE` run over a chunked stream. -/
def runWorker {R : Type} (parse : List Char → Option R)
    (chunks : List (List Char)) : WOut :=
  finalizeWorker parse
    (chunks.foldl (feedChunk parse)
      { buffer := [], items := [], processed := 0, errors := 0, inserted := 0 })

/-- Flush-invariant observables of a worker state: `total` is the records
already flushed plus those pending in `items`. -/
structure Obs where
  buffer : List Char
  processed : Nat
  errors : Nat
  total : Nat
deriving DecidableEq, Repr

/-- Projection of a worker state onto its observables. -/
def obsOf {R : Type} (st : WSt R) : Obs :=
  { buffer := st.buffer, processed := st.processed, errors := st.errors,
    total := st.inserted + st.items.length }

/-- `procLine` on observables. -/
def obsLine {R : Type} (parse : List Char → Option R) (o : Obs)
    (line : List Char) : Obs :=
  if trimChars line = [] then o
  else
    match parse line with
    | some _ => { o with processed := o.processed + 1, total := o.total + 1 }
    | none => { o with errors := o.errors + 1 }

/-- `feedChunk` on observables (the flush is invisible here). -/
def obsFeed {R : Type} (parse : List Char → Option R) (o : Obs)
    (chunk : List Char) : Obs :=
  let pr := splitLines (o.buffer ++ chunk)
  pr.1.foldl (obsLine parse) { o with buffer := pr.2 }

theorem obsOf_procLine {R : Type} (parse : List Char → Option R) (st : WSt R)
    (line : List Char) :
    obsOf (procLine parse st line) = obsLine parse (obsOf st) line := by
  unfold procLine obsLine
  split
  · rfl
  · cases parse line with
    | none => rfl
    | some r => simp [obsOf, Nat.add_assoc]

theorem obsOf_foldLines {R : Type} (parse : List Char → Option R) :
    ∀ (ls : List (List Char)) (st : WSt R),
      obsOf (ls.foldl (procLine parse) st) = ls.foldl (obsLine parse) (obsOf st) := by
  intro ls
  induction ls with
  | nil => intro st; rfl
  | cons l lt ih =>
    intro st
    rw [List.foldl_cons, List.foldl_cons, ih, obsOf_procLine]

theorem obsLine_buffer {R : Type} (parse : List Char → Option R) (o : Obs)
    (b line : List Char) :
    obsLine parse { o with buffer := b } line
      = { obsLine parse o line with buffer := b } := by
  unfold obsLine
  split
  · rfl
  · cases parse line with
    | none => rfl
    | some r => rfl

theorem foldLines_buffer {R : Type} (parse : List Char → Option R) :
    ∀ (ls : List (List Char)) (o : Obs) (b : List Char),
      ls.foldl (obsLine parse) { o with buffer := b }
        = { ls.foldl (obsLine parse) o with buffer := b } := by
  intro ls
  induction ls with
  | nil => intro o b; rfl
  | cons l lt ih =>
    intro o b
    rw [List.foldl_cons, List.foldl_cons, obsLine_buffer, ih]

theorem obsOf_feedChunk {R : Type} (parse : List Char → Option R)
    (st : WSt R) (chunk : List Char) :
    obsOf (feedChunk parse st chunk) = obsFeed parse (obsOf st) chunk := by
  simp only [feedChunk, obsFeed]
  rw [obsOf_foldLines]
  by_cases hge : INGEST_FLUSH_SIZE ≤ st.items.length
  · rw [if_pos hge]
    rfl
  · rw [if_neg hge]
    rfl

/-- Prefix the partial tail of a left part onto the first line of a right
part's split. -/
def glueLines (ta : List Char) : List (List Char) → List (List Char)
  | [] => []
  | l :: lt => (ta ++ l) :: lt

/-- The partial tail of a concatenation's split. -/
def glueTail (ta : List Char) (lb : List (List Char)) (tb : List Char) :
    List Char :=
  match lb with
  | [] => ta ++ tb
  | _ :: _ => tb

theorem splitLines_append :
    ∀ a b : List Char,
      splitLines (a ++ b)
        = ((splitLines a).1
             ++ glueLines (splitLines a).2 (splitLines b).1,
           glueTail (splitLines a).2 (splitLines b).1 (splitLines b).2) := by
  intro a
  induction a with
  | nil =>
    intro b
    rcases hb : splitLines b with ⟨lb, tb⟩
    cases lb with
    | nil => simp [splitLines, glueLines, glueTail, hb]
    | cons l lt => simp [splitLines, glueLines, glueTail, hb]
  | cons c a ih =>
    intro b
    by_cases hc : c = '\n'
    · subst hc
      rw [List.cons_append]
      rw [show splitLines ('\n' :: (a ++ b))
          = ([] :: (splitLines (a ++ b)).1, (splitLines (a ++ b)).2) by
        simp [splitLines]]
      rw [show splitLines ('\n' :: a)
          = ([] :: (splitLines a).1, (splitLines a).2) by simp [splitLines]]
      rw [ih b]
      simp
    · rw [List.cons_append]
      rw [show splitLines (c :: (a ++ b))
          = (match (splitLines (a ++ b)).1 with
             | [] => (([] : List (List Char)), c :: (splitLines (a ++ b)).2)
             | l :: lt => ((c :: l) :: lt, (splitLines (a ++ b)).2)) by
        simp [splitLines, hc]]
      rw [show splitLines (c :: a)
          = (match (splitLines a).1 with
             | [] => (([] : List (List Char)), c :: (splitLines a).2)
             | l :: lt => ((c :: l) :: lt, (splitLines a).2)) by
        simp [splitLines, hc]]
      rw [ih b]
      rcases hla : (splitLines a).1 with _ | ⟨l, lt⟩
      · rcases hlb : (splitLines b).1 with _ | ⟨lb, lbt⟩
        · simp [glueLines, glueTail]
        · simp [glueLines, glueTail]
      · simp [glueLines, glueTail]

theorem splitLines_no_newline :
    ∀ t : List Char, '\n' ∉ t → splitLines t = ([], t) := by
  intro t
  induction t with
  | nil => intro _; rfl
  | cons c rest ih =>
    intro h
    have hc : ¬c = '\n' := fun hcc => h (hcc ▸ List.mem_cons_self c rest)
    have hr : '\n' ∉ rest := fun hm => h (List.mem_cons_of_mem c hm)
    simp [splitLines, hc, ih hr]

theorem splitLines_tail_no_newline :
    ∀ cs : List Char, '\n' ∉ (splitLines cs).2 := by
  intro cs
  induction cs with
  | nil => simp [splitLines]
  | cons c rest ih =>
    by_cases hc : c = '\n'
    · simpa [splitLines, hc] using ih
    · rcases hl : (splitLines rest).1 with _ | ⟨l, lt⟩
      · simp only [splitLines, hc, if_neg hc, hl]
        intro hmem
        rcases List.mem_cons.mp hmem with hmem | hmem
        · exact hc hmem.symm
        · exact ih hmem
      · simpa [splitLines, hc, hl] using ih

theorem splitLines_line_newline (l : List Char) (h : '\n' ∉ l) :
    splitLines (l ++ ['\n']) = ([l], []) := by
  rw [splitLines_append, splitLines_no_newline l h,
    show splitLines ['\n'] = ([[]], []) from by decide]
  simp [glueLines, glueTail]

theorem splitLines_joined :
    ∀ lines : List (List Char), (∀ l ∈ lines, '\n' ∉ l) →
      splitLines ((lines.map (fun l => l ++ ['\n'])).flatten)
        = (lines, []) := by
  intro lines
  induction lines with
  | nil => intro _; rfl
  | cons l ls ih =>
    intro h
    rw [List.map_cons, List.flatten_cons, splitLines_append,
      splitLines_line_newline l (h l (List.mem_cons_self l ls)),
      ih (fun x hx => h x (List.mem_cons_of_mem l hx))]
    rcases ls with _ | ⟨x, xs⟩
    · rfl
    · rfl

theorem obsFeed_buffer {R : Type} (parse : List Char → Option R) (o : Obs)
    (c : List Char) :
    (obsFeed parse o c).buffer = (splitLines (o.buffer ++ c)).2 := by
  simp only [obsFeed]
  rw [foldLines_buffer]

theorem obsExt (x y : Obs) (h1 : x.buffer = y.buffer)
    (h2 : x.processed = y.processed) (h3 : x.errors = y.errors)
    (h4 : x.total = y.total) : x = y := by
  cases x
  cases y
  simp_all

theorem obsFeed_as_record {R : Type} (parse : List Char → Option R) (o : Obs)
    (c : List Char) :
    obsFeed parse o c
      = { (splitLines (o.buffer ++ c)).1.foldl (obsLine parse) o with
          buffer := (splitLines (o.buffer ++ c)).2 } := by
  rw [obsFeed, foldLines_buffer]

theorem obsFeed_processed {R : Type} (parse : List Char → Option R) (o : Obs)
    (c : List Char) :
    (obsFeed parse o c).processed
      = ((splitLines (o.buffer ++ c)).1.foldl (obsLine parse) o).processed := by
  rw [obsFeed_as_record]

theorem obsFeed_errors {R : Type} (parse : List Char → Option R) (o : Obs)
    (c : List Char) :
    (obsFeed parse o c).errors
      = ((splitLines (o.buffer ++ c)).1.foldl (obsLine parse) o).errors := by
  rw [obsFeed_as_record]

theorem obsFeed_total {R : Type} (parse : List Char → Option R) (o : Obs)
    (c : List Char) :
    (obsFeed parse o c).total
      = ((splitLines (o.buffer ++ c)).1.foldl (obsLine parse) o).total := by
  rw [obsFeed_as_record]

theorem foldLines_counts_indep {R : Type} (parse : List Char → Option R) :
    ∀ (ls : List (List Char)) (x y : Obs),
      x.processed = y.processed → x.errors = y.errors → x.total = y.total →
      (ls.foldl (obsLine parse) x).processed
          = (ls.foldl (obsLine parse) y).processed
        ∧ (ls.foldl (obsLine parse) x).errors
          = (ls.foldl (obsLine parse) y).errors
        ∧ (ls.foldl (obsLine parse) x).total
          = (ls.foldl (obsLine parse) y).total := by
  intro ls
  induction ls with
  | nil =>
    intro x y h1 h2 h3
    exact ⟨h1, h2, h3⟩
  | cons l lt ih =>
    intro x y h1 h2 h3
    rw [List.foldl_cons, List.foldl_cons]
    refine ih (obsLine parse x l) (obsLine parse y l) ?_ ?_ ?_ <;>
      · unfold obsLine
        split
        · first
            | exact h1
            | exact h2
            | exact h3
        · cases parse l with
          | some r => simp [h1, h2, h3]
          | none => simp [h1, h2, h3]

theorem obsFeed_append {R : Type} (parse : List Char → Option R) (o : Obs)
    (a b : List Char) :
    obsFeed parse (obsFeed parse o a) b = obsFeed parse o (a ++ b) := by
  have hA2 : splitLines (splitLines (o.buffer ++ a)).2
      = ([], (splitLines (o.buffer ++ a)).2) :=
    splitLines_no_newline _ (splitLines_tail_no_newline _)
  have hC : splitLines (o.buffer ++ (a ++ b))
      = ((splitLines (o.buffer ++ a)).1
           ++ (splitLines ((splitLines (o.buffer ++ a)).2 ++ b)).1,
         (splitLines ((splitLines (o.buffer ++ a)).2 ++ b)).2) := by
    rw [← List.append_assoc, splitLines_append (o.buffer ++ a) b,
      splitLines_append ((splitLines (o.buffer ++ a)).2) b, hA2]
    simp [glueLines, glueTail]
  refine obsExt _ _ ?_ ?_ ?_ ?_
  · rw [obsFeed_buffer, obsFeed_buffer, obsFeed_buffer, hC]
  · rw [obsFeed_processed, obsFeed_processed, obsFeed_buffer, hC,
      List.foldl_append]
    exact (foldLines_counts_indep parse _ _ _ (obsFeed_processed parse o a)
      (obsFeed_errors parse o a) (obsFeed_total parse o a)).1
  · rw [obsFeed_errors, obsFeed_errors, obsFeed_buffer, hC,
      List.foldl_append]
    exact (foldLines_counts_indep parse _ _ _ (obsFeed_processed parse o a)
      (obsFeed_errors parse o a) (obsFeed_total parse o a)).2.1
  · rw [obsFeed_total, obsFeed_total, obsFeed_buffer, hC,
      List.foldl_append]
    exact (foldLines_counts_indep parse _ _ _ (obsFeed_processed parse o a)
      (obsFeed_errors parse o a) (obsFeed_total parse o a)).2.2

theorem obsOf_foldChunks {R : Type} (parse : List Char → Option R) :
    ∀ (chunks : List (List Char)) (st : WSt R),
      obsOf (chunks.foldl (feedChunk parse) st)
        = chunks.foldl (obsFeed parse) (obsOf st) := by
  intro chunks
  induction chunks with
  | nil => intro st; rfl
  | cons c cs ih =>
    intro st
    rw [List.foldl_cons, List.foldl_cons, ih, obsOf_feedChunk]

theorem obsFeed_chunks {R : Type} (parse : List Char → Option R) :
    ∀ (chunks : List (List Char)) (o : Obs), '\n' ∉ o.buffer →
      chunks.foldl (obsFeed parse) o = obsFeed parse o chunks.flatten := by
  intro chunks
  induction chunks with
  | nil =>
    intro o hb
    rw [List.foldl_nil, List.flatten_nil]
    rw [obsFeed, List.append_nil, splitLines_no_newline o.buffer hb]
    rfl
  | cons c cs ih =>
    intro o hb
    rw [List.foldl_cons, List.flatten_cons, ← obsFeed_append,
      ih _ ?_]
    rw [obsFeed_buffer]
    exact splitLines_tail_no_newline _

theorem foldLines_counts {R : Type} (parse : List Char → Option R) :
    ∀ (ls : List (List Char)) (o : Obs), (∀ l ∈ ls, trimChars l ≠ []) →
      ls.foldl (obsLine parse) o
        = { o with
            processed := o.processed + ls.countP (fun l => (parse l).isSome),
            errors := o.errors + ls.countP (fun l => (parse l).isNone),
            total := o.total + ls.countP (fun l => (parse l).isSome) } := by
  intro ls
  induction ls with
  | nil =>
    intro o _
    simp
  | cons l lt ih =>
    intro o h
    have hl : trimChars l ≠ [] := h l (List.mem_cons_self l lt)
    rw [List.foldl_cons]
    rw [show obsLine parse o l
        = (match parse l with
           | some _ =>
             { o with processed := o.processed + 1, total := o.total + 1 }
           | none => { o with errors := o.errors + 1 }) by
      rw [obsLine, if_neg hl]]
    cases hp : parse l with
    | some r =>
      rw [ih _ (fun x hx => h x (List.mem_cons_of_mem l hx))]
      obtain ⟨ob, op, oe, ot⟩ := o
      simp only [List.countP_cons, hp, Option.isSome_some, Option.isNone_some,
        Obs.mk.injEq, if_true, Bool.false_eq_true, if_false, true_and]
      omega
    | none =>
      rw [ih _ (fun x hx => h x (List.mem_cons_of_mem l hx))]
      obtain ⟨ob, op, oe, ot⟩ := o
      simp only [List.countP_cons, hp, Option.isSome_none, Option.isNone_none,
        Obs.mk.injEq, if_true, Bool.false_eq_true, if_false, true_and]
      omega

theorem finalizeWorker_empty_buffer {R : Type} (parse : List Char → Option R)
    (st : WSt R) (h : st.buffer = []) :
    finalizeWorker parse st
      = { inserted := (obsOf st).total, errors := (obsOf st).errors,
          dataEvents := (obsOf st).processed,
          completeTotal := (obsOf st).processed } := by
  simp only [finalizeWorker, h]
  rw [if_pos (show trimChars [] = [] from rfl)]
  by_cases hi : 0 < st.items.length
  · rw [if_pos hi]
    rfl
  · rw [if_neg hi]
    have hz : st.items.length = 0 := by omega
    simp [obsOf, hz]

/-- C4: for every stream (any chunking) whose content is 101
newline-terminated, non-blank lines — 100 parsing successfully and exactly
one failing to parse — the worker hands exactly 100 records to
`batchInsert`, emits exactly one non-fatal error event, keeps processing
after the malformed line (100 data events), and emits one `complete` event
whose total is 100. -/
theorem C4_ingest_one_malformed (R : Type) (parse : List Char → Option R)
    (lines : List (List Char)) (chunks : List (List Char))
    (hnl : ∀ l ∈ lines, '\n' ∉ l)
    (hnb : ∀ l ∈ lines, trimChars l ≠ [])
    (hok : lines.countP (fun l => (parse l).isSome) = 100)
    (hbad : lines.countP (fun l => (parse l).isNone) = 1)
    (hchunks : chunks.flatten = (lines.map (fun l => l ++ ['\n'])).flatten) :
    runWorker parse chunks
      = { inserted := 100, errors := 1, dataEvents := 100,
          completeTotal := 100 } := by
  have hobs : obsOf (chunks.foldl (feedChunk parse)
      ({ buffer := [], items := [], processed := 0, errors := 0,
         inserted := 0 } : WSt R))
      = { buffer := [], processed := 100, errors := 1, total := 100 } := by
    rw [obsOf_foldChunks, obsFeed_chunks parse chunks _ (by simp [obsOf]),
      hchunks]
    rw [obsFeed]
    simp only [obsOf]
    rw [List.nil_append, splitLines_joined lines hnl]
    rw [foldLines_counts parse lines _ hnb]
    simp [hok, hbad]
  rw [runWorker, finalizeWorker_empty_buffer parse _
    (by rw [show (chunks.foldl (feedChunk parse)
        ({ buffer := [], items := [], processed := 0, errors := 0,
           inserted := 0 } : WSt R)).buffer
      = (obsOf (chunks.foldl (feedChunk parse)
          ({ buffer := [], items := [], processed := 0, errors := 0,
             inserted := 0 } : WSt R))).buffer from rfl, hobs])]
  rw [hobs]

set_option maxRecDepth 100000 in
/-- Witness for C4: 100 parseable lines plus one malformed line, delivered
as a single chunk. -/
theorem C4_ingest_one_malformed_witness :
    runWorker (fun l => if l = ['o', 'k'] then some () else none)
        [((List.replicate 100 ['o', 'k'] ++ [['n', 'o']]).map
            (fun l => l ++ ['\n'])).flatten]
      = { inserted := 100, errors := 1, dataEvents := 100,
          completeTotal := 100 } :=
  C4_ingest_one_malformed Unit
    (fun l => if l = ['o', 'k'] then some () else none)
    (List.replicate 100 ['o', 'k'] ++ [['n', 'o']])
    [((List.replicate 100 ['o', 'k'] ++ [['n', 'o']]).map
        (fun l => l ++ ['\n'])).flatten]
    (by decide) (by decide) (by decide) (by decide) (by decide)

end FMS
